import Mathlib

/-!
Shallow embedding of the next-combination engine of the `bioweapon` repository.

Sequences are `List α` over a linearly ordered element type; an iterator into
the sequence is an index (`Nat`).  The three-iterator call
`next_combination(first, mid, last)` becomes `next_combination r s` where
`s` is the whole range `[first, last)` and `r` the split index (`mid - first`):
`s.take r` is the selection `[first, mid)` and `s.drop r` the pool `[mid, last)`.

`lower_bound` / `upper_bound` are embedded by their standard-library
specification on a partitioned range: the first position whose element is not
less than (resp. greater than) the value.  `std::rotate`, `std::swap_ranges`
and `std::reverse` become the corresponding list operations.
-/

set_option linter.unusedSectionVars false

namespace Bioweapon

variable {α : Type} [LinearOrder α] [Inhabited α]

/-- `std::lower_bound(first, last, v)` over the list `l`: the first index whose
element is not `< v` (`l.length` if every element is `< v`). -/
def lower_bound (l : List α) (v : α) : Nat :=
  match l with
  | [] => 0
  | x :: xs => if x < v then lower_bound xs v + 1 else 0

/-- `std::upper_bound(first, last, v)` over the list `l`: the first index whose
element is `> v` (`l.length` if no element is `> v`). -/
def upper_bound (l : List α) (v : α) : Nat :=
  match l with
  | [] => 0
  | x :: xs => if v < x then 0 else upper_bound xs v + 1

/-- `std::rotate(first, first + k, last)` over the whole list. -/
def listRotate (l : List α) (k : Nat) : List α :=
  l.drop k ++ l.take k

/-- `std::iter_swap(it_i, it_j)` on a sequence: exchange the elements at
indices `i` and `j`. -/
def listSwap (s : List α) (i j : Nat) : List α :=
  let a := s.getD i default
  let b := s.getD j default
  (s.set i b).set j a

/-- `biowpn::rotate_disjoint(first1, last1, first2, last2)` acting on the two
ranges as lists `a = [first1, last1)` and `b = [first2, last2)`; returns the
new contents of the two ranges.  `n1 <= n2`: `swap_ranges(first1, last1,
first2)` leaves `b.take n1` in the first range and `a ++ b.drop n1` in the
second, then `rotate(first2, mid2, last2)` rotates the second range by `n1`.
`n1 > n2`: `swap_ranges(mid1, last1, first2)` with `mid1 = prev(last1, n2)`
leaves `a.take (n1 - n2) ++ b` in the first range and `a.drop (n1 - n2)` in
the second, then `rotate(first1, mid1, last1)` rotates the first range by
`n1 - n2`.  (The identical template `rotate2` of `next_combination.cpp` is
embedded by this same definition.) -/
def rotate_disjoint (a b : List α) : List α × List α :=
  let n1 := a.length
  let n2 := b.length
  if n1 ≤ n2 then
    (b.take n1, listRotate (a ++ b.drop n1) n1)
  else
    (listRotate (a.take (n1 - n2) ++ b) (n1 - n2), a.drop (n1 - n2))

/-- `rotate_disjoint` applied to the sub-ranges `[f1, l1)` and `[f2, l2)` of a
single sequence, reassembling the sequence around them. -/
def rotate_disjoint_at (s : List α) (f1 l1 f2 l2 : Nat) : List α :=
  let a := (s.take l1).drop f1
  let b := (s.take l2).drop f2
  let p := rotate_disjoint a b
  s.take f1 ++ p.1 ++ (s.take f2).drop l1 ++ p.2 ++ s.drop l2

/-- `biowpn::next_combination(first, mid, last)` (impl/biowpn.hpp, lines
22-36; the identical three-iterator template of `next_combination.cpp`, lines
58-82, is embedded by this same definition).  The guard `first == mid || mid
== last` is `r = 0 ∨ s.length ≤ r` (for valid iterators `mid == last` means
`r = s.length`).  `left` is `lower_bound(first, mid, *prev(last))`; if it is
`first` the whole range is rotated (`std::rotate(first, mid, last)`) and the
call reports exhaustion; otherwise `left` is decremented, `right =
upper_bound(mid, last, *left)`, the two elements are swapped and
`rotate_disjoint(next(left), mid, next(right), last)` restores the tails. -/
def next_combination (r : Nat) (s : List α) : Bool × List α :=
  if r = 0 ∨ s.length ≤ r then
    (false, s)
  else
    let left := lower_bound (s.take r) (s.getD (s.length - 1) default)
    if left = 0 then
      (false, s.drop r ++ s.take r)
    else
      let li := left - 1
      let right := r + upper_bound (s.drop r) (s.getD li default)
      let s1 := listSwap s li right
      (true, rotate_disjoint_at s1 (li + 1) r (right + 1) s.length)

/-- The backward scan `while (--m1 != first1 && !(*m1 < *m2)) {}` of the
four-iterator `next_combination` (next_combination.cpp, line 17), with
`first1 = 0`: called with the current value of `m1`, it first decrements and
then tests.  `v` is `*m2` (the last element). -/
def findM1 (s : List α) (v : α) : Nat → Nat
  | 0 => 0
  | m + 1 => if m ≠ 0 ∧ ¬(s.getD m default < v) then findM1 s v m else m

/-- The forward scan `while (first2 != m2 && !(*m1 < *first2)) ++first2;` of
the four-iterator `next_combination` (next_combination.cpp, line 21): `lv` is
`*m1`, `m2` the index of the last element, `j` the current `first2`. -/
def findFirst2 (s : List α) (lv : α) (m2 j : Nat) : Nat :=
  if h : j < m2 ∧ ¬(lv < s.getD j default) then
    findFirst2 s lv m2 (j + 1)
  else j
termination_by m2 - j
decreasing_by omega

/-- The exchange loop of the four-iterator `next_combination`
(next_combination.cpp, lines 32-35): `while (m1 != first1 && m2 != last2)
iter_swap(--m1, m2++)`.  For valid iterators `m1 != first1` with `m1 ≥ first1`
is `f1 < m1`, and likewise `m2 != last2` is `m2 < l2`.  Returns the sequence
and the final `m1`, `m2`. -/
def swapLoop (f1 l2 : Nat) (s : List α) (m1 m2 : Nat) : List α × Nat × Nat :=
  if h : f1 < m1 ∧ m2 < l2 then
    swapLoop f1 l2 (listSwap s (m1 - 1) m2) (m1 - 1) (m2 + 1)
  else (s, m1, m2)
termination_by m1
decreasing_by omega

/-- `std::reverse(first + i, first + j)` inside the whole sequence. -/
def reverseRange (s : List α) (i j : Nat) : List α :=
  s.take i ++ ((s.drop i).take (j - i)).reverse ++ s.drop j

/-- The four-iterator `next_combination(first1, last1, first2, last2)` of
next_combination.cpp (lines 7-42), called as the repository's demo does with
`last1 == first2`: one sequence `s` with `first1 = 0`, `last1 = first2 = r`,
`last2 = s.length`.  Index variables mirror the iterators; the guard
`first1 == last1 || first2 == last2` is `r = 0 ∨ s.length ≤ r` as above. -/
def next_combination4 (r : Nat) (s : List α) : Bool × List α :=
  if r = 0 ∨ s.length ≤ r then
    (false, s)
  else
    let n := s.length
    let m2 := n - 1
    let v := s.getD m2 default
    let m1 := findM1 s v r
    let result : Bool := decide (m1 = 0) && decide (¬(s.getD 0 default < v))
    let t :=
      if result then (s, 0, r)
      else
        let j := findFirst2 s (s.getD m1 default) m2 r
        (listSwap s m1 j, m1 + 1, j + 1)
    let s1 := t.1
    let first1 := t.2.1
    let first2 := t.2.2
    if first1 ≠ r ∧ first2 ≠ n then
      let u := swapLoop first1 n s1 r first2
      let s2 := u.1
      let m1e := u.2.1
      let m2e := u.2.2
      let s3 := reverseRange s2 first1 m1e
      let s4 := reverseRange s3 first1 r
      let s5 := reverseRange s4 m2e n
      let s6 := reverseRange s5 first2 n
      (!result, s6)
    else (!result, s1)

/-- `k` repetitions of the three-iterator generator from a starting sequence:
the enumeration states `s0, s1, ...` of the do-while loop in
`test_and_show`. -/
def iterN (r : Nat) : Nat → List α → List α
  | 0, s => s
  | k + 1, s => iterN r k (next_combination r s).2

/-- `k` repetitions of the four-iterator generator. -/
def iterN4 (r : Nat) : Nat → List α → List α
  | 0, s => s
  | k + 1, s => iterN4 r k (next_combination4 r s).2

/-! ### Properties of the embedded standard-library searches -/

theorem lower_bound_le_length (l : List α) (v : α) : lower_bound l v ≤ l.length := by
  induction l with
  | nil => simp [lower_bound]
  | cons x xs ih =>
    simp only [lower_bound, List.length_cons]
    split <;> omega

theorem getD_lt_of_lt_lower_bound {l : List α} {v : α} {i : Nat}
    (h : i < lower_bound l v) : l.getD i default < v := by
  induction l generalizing i with
  | nil => simp [lower_bound] at h
  | cons x xs ih =>
    by_cases hx : x < v
    · simp only [lower_bound, if_pos hx] at h
      cases i with
      | zero => simpa [List.getD_cons_zero] using hx
      | succ i =>
        rw [List.getD_cons_succ]
        exact ih (by omega)
    · simp [lower_bound, hx] at h

theorem lower_bound_getD_ge {l : List α} {v : α}
    (h : lower_bound l v < l.length) : v ≤ l.getD (lower_bound l v) default := by
  induction l with
  | nil => simp at h
  | cons x xs ih =>
    by_cases hx : x < v
    · simp only [lower_bound, if_pos hx, List.getD_cons_succ]
      simp only [lower_bound, if_pos hx, List.length_cons] at h
      exact ih (by omega)
    · simpa [lower_bound, hx, List.getD_cons_zero] using le_of_not_lt hx

theorem upper_bound_le_length (l : List α) (v : α) : upper_bound l v ≤ l.length := by
  induction l with
  | nil => simp [upper_bound]
  | cons x xs ih =>
    simp only [upper_bound, List.length_cons]
    split <;> omega

theorem getD_le_of_lt_upper_bound {l : List α} {v : α} {i : Nat}
    (h : i < upper_bound l v) : l.getD i default ≤ v := by
  induction l generalizing i with
  | nil => simp [upper_bound] at h
  | cons x xs ih =>
    by_cases hx : v < x
    · simp [upper_bound, hx] at h
    · simp only [upper_bound, if_neg hx] at h
      cases i with
      | zero => simpa [List.getD_cons_zero] using le_of_not_lt hx
      | succ i =>
        rw [List.getD_cons_succ]
        exact ih (by omega)

theorem upper_bound_getD_gt {l : List α} {v : α}
    (h : upper_bound l v < l.length) : v < l.getD (upper_bound l v) default := by
  induction l with
  | nil => simp at h
  | cons x xs ih =>
    by_cases hx : v < x
    · simpa [upper_bound, hx, List.getD_cons_zero] using hx
    · simp only [upper_bound, if_neg hx, List.getD_cons_succ]
      simp only [upper_bound, if_neg hx, List.length_cons] at h
      exact ih (by omega)

theorem upper_bound_le_of_getD_gt {l : List α} {v : α} {j : Nat}
    (hj : j < l.length) (h : v < l.getD j default) : upper_bound l v ≤ j := by
  induction l generalizing j with
  | nil => simp at hj
  | cons x xs ih =>
    simp only [upper_bound]
    split
    · omega
    · cases j with
      | zero => simp [List.getD_cons_zero] at h; exact absurd h ‹¬ v < x›
      | succ j =>
        simpa using Nat.succ_le_succ (ih (by simpa using hj) (by simpa [List.getD_cons_succ] using h))

/-! ### Basic access lemmas -/

theorem getD_take {s : List α} {i r : Nat} (h : i < r) (d : α) :
    (s.take r).getD i d = s.getD i d := by
  simp [List.getD_eq_getElem?_getD, List.getElem?_take, h]

theorem getD_drop (s : List α) (r k : Nat) (d : α) :
    (s.drop r).getD k d = s.getD (r + k) d := by
  simp [List.getD_eq_getElem?_getD, List.getElem?_drop]

theorem sorted_getD_le {l : List α} (h : l.Sorted (· ≤ ·)) {i j : Nat}
    (hij : i ≤ j) (hj : j < l.length) : l.getD i default ≤ l.getD j default := by
  rcases Nat.eq_or_lt_of_le hij with rfl | hlt
  · exact le_refl _
  · rw [List.getD_eq_getElem _ _ (lt_trans hlt hj), List.getD_eq_getElem _ _ hj]
    exact List.pairwise_iff_getElem.mp h i j _ _ hlt

/-! ### The closed form of `rotate_disjoint` -/

theorem rotate_disjoint_eq (a b : List α) :
    rotate_disjoint a b = ((b ++ a).take a.length, (b ++ a).drop a.length) := by
  unfold rotate_disjoint listRotate
  by_cases h : a.length ≤ b.length
  · simp only [if_pos h, Prod.mk.injEq]
    refine ⟨(List.take_append_of_le_length h).symm, ?_⟩
    rw [List.drop_left, List.take_left, List.drop_append_of_le_length h]
  · push_neg at h
    have hk : (List.take (a.length - b.length) a).length = a.length - b.length := by
      rw [List.length_take]
      omega
    simp only [if_neg (not_le.mpr h), Prod.mk.injEq]
    refine ⟨?_, ?_⟩
    · rw [List.drop_left' hk, List.take_left' hk, List.take_append_eq_append_take,
        List.take_of_length_le (le_of_lt h)]
    · rw [List.drop_append_eq_append_drop, List.drop_of_length_le (le_of_lt h),
        List.nil_append]

/-! ### `listSwap` -/

theorem listSwap_length (s : List α) (i j : Nat) :
    (listSwap s i j).length = s.length := by
  simp [listSwap]

theorem listSwap_cons (x : α) (s : List α) (i j : Nat) :
    listSwap (x :: s) (i + 1) (j + 1) = x :: listSwap s i j := by
  simp [listSwap, List.getD_cons_succ, List.set_cons_succ]

theorem getD_cons_set_perm {s : List α} {k : Nat} (h : k < s.length) (x : α) :
    (s.getD k default :: s.set k x).Perm (x :: s) := by
  induction s generalizing k with
  | nil => simp at h
  | cons y t ih =>
    cases k with
    | zero => simpa [List.getD_cons_zero] using List.Perm.swap x y t
    | succ k =>
      have hk : k < t.length := by simpa using h
      refine (List.Perm.swap y (t.getD k default) (t.set k x)).trans ?_
      exact (((ih hk).cons y).trans (List.Perm.swap x y t))

theorem listSwap_perm : ∀ (s : List α) (i j : Nat), i < s.length → j < s.length →
    (listSwap s i j).Perm s := by
  intro s
  induction s with
  | nil => intro i j hi; simp at hi
  | cons x t ih =>
    intro i j hi hj
    match i, j with
    | 0, 0 => simp [listSwap, List.getD_cons_zero]
    | 0, j + 1 =>
      have hjt : j < t.length := by simpa using hj
      show (((x :: t).set 0 (t.getD j default)).set (j + 1) x).Perm (x :: t)
      simp only [List.set_cons_zero, List.set_cons_succ]
      exact getD_cons_set_perm hjt x
    | i + 1, 0 =>
      have hit : i < t.length := by simpa using hi
      show (((x :: t).set (i + 1) x).set 0 (t.getD i default)).Perm (x :: t)
      simp only [List.set_cons_succ, List.set_cons_zero]
      exact getD_cons_set_perm hit x
    | i + 1, j + 1 =>
      rw [listSwap_cons]
      exact (ih i j (by simpa using hi) (by simpa using hj)).cons x

theorem listSwap_append {u w : List α} {i j : Nat} (hi : i < u.length) (hj : u.length ≤ j) :
    listSwap (u ++ w) i j
      = u.set i (w.getD (j - u.length) default) ++ w.set (j - u.length) (u.getD i default) := by
  show (((u ++ w).set i ((u ++ w).getD j default)).set j ((u ++ w).getD i default)) = _
  rw [List.getD_append_right _ _ _ _ hj, List.getD_append _ _ _ _ hi]
  rw [List.set_append, if_pos hi, List.set_append, if_neg (by simp [hj, not_lt.mpr])]
  congr 2
  simp

/-! ### Shape of the three branches of `next_combination` -/

theorem next_combination_stop {s : List α} {r : Nat} (h : r = 0 ∨ s.length ≤ r) :
    next_combination r s = (false, s) := by
  rw [next_combination, if_pos h]

theorem next_combination_exhaust {s : List α} {r : Nat} (h0 : 0 < r) (hn : r < s.length)
    (hleft : lower_bound (s.take r) (s.getD (s.length - 1) default) = 0) :
    next_combination r s = (false, s.drop r ++ s.take r) := by
  rw [next_combination, if_neg (by omega)]
  simp only [hleft, eq_self_iff_true, if_true]

/-- The successful branch in closed form.  With `sel = s.take r`,
`pool = s.drop r`, pivot index `li` in the selection (`lower_bound` returned
`li + 1`) and exchange index `ub` in the pool (what `upper_bound` returned),
the call swaps `sel[li]` with `pool[ub]` and the gapped rotation rebuilds the
sequence as below. -/
theorem next_combination_true_eq {s : List α} {r li ub : Nat} (h0 : 0 < r) (hn : r < s.length)
    (hli : lower_bound (s.take r) (s.getD (s.length - 1) default) = li + 1)
    (hub : upper_bound (s.drop r) (s.getD li default) = ub) :
    next_combination r s =
      (true,
        (s.take r).take li ++ (s.drop r).getD ub default ::
          (((s.drop r).drop (ub + 1) ++ (s.take r).drop (li + 1)).take (r - (li + 1))
            ++ ((s.drop r).take ub ++ s.getD li default ::
              ((s.drop r).drop (ub + 1) ++ (s.take r).drop (li + 1)).drop (r - (li + 1))))) := by
  have hlen_sel : (s.take r).length = r := by
    rw [List.length_take]
    omega
  have hlen_pool : (s.drop r).length = s.length - r := List.length_drop _ _
  have hli_lt : li < r := by
    have := lower_bound_le_length (s.take r) (s.getD (s.length - 1) default)
    omega
  have hlv : s.getD li default = (s.take r).getD li default := (getD_take hli_lt _).symm
  have hlast : s.getD (s.length - 1) default = (s.drop r).getD (s.length - r - 1) default := by
    rw [getD_drop]
    congr 1
    omega
  have hlv_lt : (s.take r).getD li default < s.getD (s.length - 1) default :=
    getD_lt_of_lt_lower_bound (by omega)
  have hub_lt : ub < s.length - r := by
    have h1 : upper_bound (s.drop r) (s.getD li default) ≤ s.length - r - 1 := by
      refine upper_bound_le_of_getD_gt (by omega) ?_
      rw [← hlast, hlv]
      exact hlv_lt
    omega
  -- unfold the function down to the successful branch
  have hguard : ¬(r = 0 ∨ s.length ≤ r) := by omega
  have hnz : ¬(li + 1 = 0) := by omega
  simp only [next_combination, hli, hub, if_neg hguard, if_neg hnz, Nat.add_sub_cancel,
    Prod.mk.injEq, true_and]
  -- the swap splits at the boundary between selection and pool
  have hswap : listSwap s li (r + ub)
      = (s.take r).set li ((s.drop r).getD ub default)
        ++ (s.drop r).set ub ((s.take r).getD li default) := by
    have h1 := @listSwap_append α _ _ (s.take r) (s.drop r) li (r + ub)
      (by omega) (by rw [hlen_sel]; omega)
    rw [List.take_append_drop, hlen_sel, Nat.add_sub_cancel_left] at h1
    exact h1
  rw [hswap]
  set pv := (s.drop r).getD ub default with hpv
  set lv := (s.take r).getD li default with hlv2
  rw [hlv]
  have hsel'len : ((s.take r).set li pv).length = r := by
    rw [List.length_set, hlen_sel]
  have hpool'len : ((s.drop r).set ub lv).length = s.length - r := by
    rw [List.length_set, hlen_pool]
  have hsel'dec : (s.take r).set li pv
      = (s.take r).take li ++ pv :: (s.take r).drop (li + 1) := by
    rw [List.set_eq_take_append_cons_drop, if_pos (by omega)]
  have hpool'dec : (s.drop r).set ub lv
      = (s.drop r).take ub ++ lv :: (s.drop r).drop (ub + 1) := by
    rw [List.set_eq_take_append_cons_drop, if_pos (by omega)]
  have hulen : ((s.take r).take li).length = li := by
    rw [List.length_take, hlen_sel]
    exact min_eq_left hli_lt.le
  have hplen : ((s.drop r).take ub).length = ub := by
    rw [List.length_take, hlen_pool]
    exact min_eq_left hub_lt.le
  have hSlen : ((s.take r).set li pv ++ (s.drop r).set ub lv).length = s.length := by
    rw [List.length_append, hsel'len, hpool'len]
    omega
  -- the four pieces of rotate_disjoint_at
  have ha : ((((s.take r).set li pv ++ (s.drop r).set ub lv).take r).drop (li + 1))
      = (s.take r).drop (li + 1) := by
    rw [List.take_left' hsel'len, List.drop_set, if_pos (by omega)]
  have hb : ((((s.take r).set li pv ++ (s.drop r).set ub lv).take s.length).drop (r + ub + 1))
      = (s.drop r).drop (ub + 1) := by
    rw [List.take_of_length_le (le_of_eq hSlen)]
    have h2 : r + ub + 1 = ((s.take r).set li pv).length + (ub + 1) := by
      rw [hsel'len]
      omega
    rw [h2, List.drop_append, List.drop_set, if_pos (by omega)]
  have htake1 : (((s.take r).set li pv ++ (s.drop r).set ub lv).take (li + 1))
      = (s.take r).take li ++ [pv] := by
    rw [List.take_append_of_le_length (by rw [hsel'len]; omega), hsel'dec,
      List.take_append_eq_append_take, hulen,
      List.take_of_length_le (show ((s.take r).take li).length ≤ li + 1 by rw [hulen]; omega),
      Nat.add_sub_cancel_left]
    simp
  have hgap : ((((s.take r).set li pv ++ (s.drop r).set ub lv).take (r + ub + 1)).drop r)
      = (s.drop r).take ub ++ [lv] := by
    have h2 : r + ub + 1 = ((s.take r).set li pv).length + (ub + 1) := by
      rw [hsel'len]
      omega
    rw [h2, List.take_append, List.drop_left' hsel'len, hpool'dec,
      List.take_append_eq_append_take, hplen,
      List.take_of_length_le (show ((s.drop r).take ub).length ≤ ub + 1 by rw [hplen]; omega),
      Nat.add_sub_cancel_left]
    simp
  have hdropn : (((s.take r).set li pv ++ (s.drop r).set ub lv).drop s.length) = [] := by
    rw [List.drop_of_length_le (le_of_eq hSlen)]
  simp only [rotate_disjoint_at, rotate_disjoint_eq, ha, hb, htake1, hgap, hdropn,
    List.length_drop, hlen_sel]
  simp [List.append_assoc]

/-! ### Decomposition and membership helpers -/

theorem take_getD_drop {l : List α} {i : Nat} (h : i < l.length) :
    l.take i ++ l.getD i default :: l.drop (i + 1) = l := by
  rw [List.getD_eq_getElem _ _ h, List.getElem_cons_drop, List.take_append_drop]

theorem mem_take_imp {l : List α} {k : Nat} {x : α} (hx : x ∈ l.take k) :
    ∃ i, i < k ∧ i < l.length ∧ x = l.getD i default := by
  obtain ⟨i, hi, hx⟩ := List.mem_iff_getElem.mp hx
  have hik : i < k := by
    have := List.length_take k l
    omega
  have hil : i < l.length := by
    have := List.length_take k l
    omega
  refine ⟨i, hik, hil, ?_⟩
  rw [List.getD_eq_getElem _ _ hil, ← hx, List.getElem_take]

theorem mem_drop_imp {l : List α} {k : Nat} {x : α} (hx : x ∈ l.drop k) :
    ∃ i, k ≤ i ∧ i < l.length ∧ x = l.getD i default := by
  obtain ⟨i, hi, hx⟩ := List.mem_iff_getElem.mp hx
  have hil : k + i < l.length := by
    have := List.length_drop k l
    omega
  refine ⟨k + i, by omega, hil, ?_⟩
  rw [List.getD_eq_getElem _ _ hil, ← hx, List.getElem_drop]

theorem getD_mem {l : List α} {i : Nat} (h : i < l.length) : l.getD i default ∈ l := by
  rw [List.getD_eq_getElem _ _ h]
  exact List.getElem_mem h

theorem sorted_le_last_of_mem {l : List α} (h : l.Sorted (· ≤ ·)) {x : α} (hx : x ∈ l) :
    x ≤ l.getD (l.length - 1) default := by
  obtain ⟨i, hi, hx⟩ := List.mem_iff_getElem.mp hx
  rw [← hx, ← List.getD_eq_getElem l default hi]
  exact sorted_getD_le h (by omega) (by omega)

theorem sorted_getD_le_of_mem {l : List α} (h : l.Sorted (· ≤ ·)) {k : Nat} {x : α}
    (hk : k < l.length) (hx : x ∈ l.drop k) : l.getD k default ≤ x := by
  obtain ⟨i, hki, hil, rfl⟩ := mem_drop_imp hx
  exact sorted_getD_le h hki hil

/-! ### Multiset invariance of `next_combination` -/

theorem next_combination_perm (r : Nat) (s : List α) :
    ((next_combination r s).2).Perm s := by
  by_cases hg : r = 0 ∨ s.length ≤ r
  · rw [next_combination_stop hg]
  · push_neg at hg
    have h0 : 0 < r := Nat.pos_of_ne_zero hg.1
    have hn : r < s.length := hg.2
    cases hcl : lower_bound (s.take r) (s.getD (s.length - 1) default) with
    | zero =>
      rw [next_combination_exhaust h0 hn hcl]
      exact (List.perm_append_comm).trans (by rw [List.take_append_drop])
    | succ li =>
      rw [next_combination_true_eq h0 hn hcl rfl]
      refine List.perm_iff_count.mpr fun x => ?_
      have hli_lt : li < r := by
        have := lower_bound_le_length (s.take r) (s.getD (s.length - 1) default)
        have : (s.take r).length = r := by rw [List.length_take]; omega
        omega
      have hub_lt : upper_bound (s.drop r) (s.getD li default) < (s.drop r).length := by
        have hlast : s.getD (s.length - 1) default
            = (s.drop r).getD (s.length - r - 1) default := by
          rw [getD_drop]
          congr 1
          omega
        have hlv_lt : (s.take r).getD li default < s.getD (s.length - 1) default :=
          getD_lt_of_lt_lower_bound (by omega)
        have h1 : upper_bound (s.drop r) (s.getD li default) ≤ s.length - r - 1 := by
          refine upper_bound_le_of_getD_gt (by rw [List.length_drop]; omega) ?_
          rw [← hlast, ← getD_take hli_lt default]
          exact hlv_lt
        rw [List.length_drop]
        omega
      have h12 := congrArg (List.count x)
        (List.take_append_drop (r - (li + 1))
          ((s.drop r).drop (upper_bound (s.drop r) (s.getD li default) + 1)
            ++ (s.take r).drop (li + 1)))
      rw [List.count_append] at h12
      conv_rhs => rw [← List.take_append_drop r s,
        ← take_getD_drop (show li < (s.take r).length by rw [List.length_take]; omega),
        ← take_getD_drop hub_lt]
      rw [getD_take hli_lt]
      simp only [List.count_append, List.count_cons]
      rw [List.count_append] at h12
      omega

/-! ### Bounds of the pivot and exchange indices (no sortedness needed) -/

theorem pivot_lt_r {s : List α} {r li : Nat} (hn : r < s.length)
    (hli : lower_bound (s.take r) (s.getD (s.length - 1) default) = li + 1) :
    li < r := by
  have h1 := lower_bound_le_length (s.take r) (s.getD (s.length - 1) default)
  rw [hli, List.length_take] at h1
  omega

theorem pivot_lt_last {s : List α} {r li : Nat} (hn : r < s.length)
    (hli : lower_bound (s.take r) (s.getD (s.length - 1) default) = li + 1) :
    s.getD li default < s.getD (s.length - 1) default := by
  have h := @getD_lt_of_lt_lower_bound α _ _ (s.take r)
    (s.getD (s.length - 1) default) li (by omega)
  rwa [getD_take (pivot_lt_r hn hli)] at h

theorem exchange_lt_pool {s : List α} {r li : Nat} (hn : r < s.length)
    (hli : lower_bound (s.take r) (s.getD (s.length - 1) default) = li + 1) :
    upper_bound (s.drop r) (s.getD li default) < s.length - r := by
  have hlast : s.getD (s.length - 1) default
      = (s.drop r).getD (s.length - r - 1) default := by
    rw [getD_drop]
    congr 1
    omega
  have h1 : upper_bound (s.drop r) (s.getD li default) ≤ s.length - r - 1 := by
    refine upper_bound_le_of_getD_gt (by rw [List.length_drop]; omega) ?_
    rw [← hlast]
    exact pivot_lt_last hn hli
  omega

theorem pivot_lt_exchange {s : List α} {r li : Nat} (hn : r < s.length)
    (hli : lower_bound (s.take r) (s.getD (s.length - 1) default) = li + 1) :
    s.getD li default
      < (s.drop r).getD (upper_bound (s.drop r) (s.getD li default)) default := by
  refine upper_bound_getD_gt ?_
  rw [List.length_drop]
  exact exchange_lt_pool hn hli

/-! ### The invariant: both halves sorted ascending -/

/-- Selection `[first, mid)` and pool `[mid, last)` each sorted ascending: the
state invariant of the enumeration (spec section 4.1: "both ordered ranges"). -/
def Invariant (r : Nat) (s : List α) : Prop :=
  (s.take r).Sorted (· ≤ ·) ∧ (s.drop r).Sorted (· ≤ ·)

/-- The selection and the pool that come out of a successful call, read off the
closed form. -/
theorem next_combination_true_take_drop {s : List α} {r li ub : Nat} (h0 : 0 < r)
    (hn : r < s.length)
    (hli : lower_bound (s.take r) (s.getD (s.length - 1) default) = li + 1)
    (hub : upper_bound (s.drop r) (s.getD li default) = ub) :
    ((next_combination r s).2).take r
        = (s.take r).take li ++ (s.drop r).getD ub default ::
            (((s.drop r).drop (ub + 1) ++ (s.take r).drop (li + 1)).take (r - (li + 1)))
    ∧ ((next_combination r s).2).drop r
        = (s.drop r).take ub ++ s.getD li default ::
            (((s.drop r).drop (ub + 1) ++ (s.take r).drop (li + 1)).drop (r - (li + 1))) := by
  have hli_lt : li < r := pivot_lt_r hn hli
  have hub_lt : ub < s.length - r := hub ▸ exchange_lt_pool hn hli
  have hlen_sel : (s.take r).length = r := by
    rw [List.length_take]
    omega
  have hulen : ((s.take r).take li).length = li := by
    rw [List.length_take, hlen_sel]
    exact min_eq_left hli_lt.le
  have hT1len : ((((s.drop r).drop (ub + 1) ++ (s.take r).drop (li + 1)).take
      (r - (li + 1)))).length = r - (li + 1) := by
    rw [List.length_take]
    simp only [List.length_append, List.length_drop, hlen_sel]
    exact min_eq_left (by omega)
  have hfront : ((s.take r).take li ++ (s.drop r).getD ub default ::
      (((s.drop r).drop (ub + 1) ++ (s.take r).drop (li + 1)).take (r - (li + 1)))).length
      = r := by
    rw [List.length_append, List.length_cons, hulen, hT1len]
    omega
  simp only [next_combination_true_eq h0 hn hli hub]
  rw [← List.cons_append, ← List.append_assoc]
  exact ⟨List.take_left' hfront, List.drop_left' hfront⟩

theorem invariant_step {r : Nat} {s : List α} (h : Invariant r s) :
    Invariant r (next_combination r s).2 := by
  by_cases hg : r = 0 ∨ s.length ≤ r
  · rw [next_combination_stop hg]
    exact h
  push_neg at hg
  have h0 : 0 < r := Nat.pos_of_ne_zero hg.1
  have hn : r < s.length := hg.2
  obtain ⟨hsel, hpool⟩ := h
  have hlen_sel : (s.take r).length = r := by
    rw [List.length_take]
    omega
  have hlast : s.getD (s.length - 1) default
      = (s.drop r).getD ((s.drop r).length - 1) default := by
    rw [getD_drop, List.length_drop]
    congr 1
    omega
  cases hcl : lower_bound (s.take r) (s.getD (s.length - 1) default) with
  | zero =>
    rw [next_combination_exhaust h0 hn hcl]
    have hfull : (s.drop r ++ s.take r).Sorted (· ≤ ·) := by
      rw [List.Sorted, List.pairwise_append]
      refine ⟨hpool, hsel, fun x hx y hy => ?_⟩
      have h1 : x ≤ (s.drop r).getD ((s.drop r).length - 1) default :=
        sorted_le_last_of_mem hpool hx
      have h2 : s.getD (s.length - 1) default ≤ (s.take r).getD 0 default := by
        have h3 := @lower_bound_getD_ge α _ _ (s.take r)
          (s.getD (s.length - 1) default) (by rw [hcl, hlen_sel]; omega)
        rwa [hcl] at h3
      have h4 : (s.take r).getD 0 default ≤ y := by
        refine sorted_getD_le_of_mem hsel (by rw [hlen_sel]; omega) ?_
        rwa [List.drop_zero]
      calc x ≤ (s.drop r).getD ((s.drop r).length - 1) default := h1
        _ = s.getD (s.length - 1) default := hlast.symm
        _ ≤ (s.take r).getD 0 default := h2
        _ ≤ y := h4
    exact ⟨List.Pairwise.sublist (List.take_sublist _ _) hfull,
      List.Pairwise.sublist (List.drop_sublist _ _) hfull⟩
  | succ li =>
    obtain ⟨htake, hdrop⟩ := next_combination_true_take_drop h0 hn hcl rfl
    set ub := upper_bound (s.drop r) (s.getD li default) with hub
    have hli_lt : li < r := pivot_lt_r hn hcl
    have hub_lt : ub < s.length - r := exchange_lt_pool hn hcl
    have hlv_pv : s.getD li default < (s.drop r).getD ub default := pivot_lt_exchange hn hcl
    have hpool_len : (s.drop r).length = s.length - r := List.length_drop _ _
    have hlv_v : s.getD li default < s.getD (s.length - 1) default := pivot_lt_last hn hcl
    have hpv_v : (s.drop r).getD ub default ≤ s.getD (s.length - 1) default := by
      rw [hlast]
      exact sorted_getD_le hpool (by omega) (by omega)
    -- elements of the four slices
    have hu_le : ∀ x ∈ (s.take r).take li, x ≤ s.getD li default := by
      intro x hx
      obtain ⟨i, hik, hil, rfl⟩ := mem_take_imp hx
      rw [← getD_take hli_lt default]
      exact sorted_getD_le hsel (by omega) (by omega)
    have hP_le : ∀ x ∈ (s.drop r).take ub, x ≤ s.getD li default := by
      intro x hx
      obtain ⟨i, hik, hil, rfl⟩ := mem_take_imp hx
      exact getD_le_of_lt_upper_bound (by rw [← hub]; omega)
    have hb0_ge : ∀ y ∈ (s.drop r).drop (ub + 1), (s.drop r).getD ub default ≤ y := by
      intro y hy
      obtain ⟨j, hj1, hj2, rfl⟩ := mem_drop_imp hy
      exact sorted_getD_le hpool (by omega) hj2
    have hb0_le : ∀ y ∈ (s.drop r).drop (ub + 1), y ≤ s.getD (s.length - 1) default := by
      intro y hy
      rw [hlast]
      exact sorted_le_last_of_mem hpool (List.mem_of_mem_drop hy)
    have ha0_ge : ∀ y ∈ (s.take r).drop (li + 1), s.getD (s.length - 1) default ≤ y := by
      intro y hy
      obtain ⟨j, hj1, hj2, rfl⟩ := mem_drop_imp hy
      have h5 := @lower_bound_getD_ge α _ _ (s.take r)
        (s.getD (s.length - 1) default) (by rw [hcl]; omega)
      rw [hcl] at h5
      exact h5.trans (sorted_getD_le hsel (by omega) hj2)
    have hba : ((s.drop r).drop (ub + 1) ++ (s.take r).drop (li + 1)).Sorted (· ≤ ·) := by
      rw [List.Sorted, List.pairwise_append]
      exact ⟨List.Pairwise.sublist (List.drop_sublist _ _) hpool,
        List.Pairwise.sublist (List.drop_sublist _ _) hsel,
        fun x hx y hy => (hb0_le x hx).trans (ha0_ge y hy)⟩
    have hba_ge : ∀ y ∈ (s.drop r).drop (ub + 1) ++ (s.take r).drop (li + 1),
        (s.drop r).getD ub default ≤ y := by
      intro y hy
      rcases List.mem_append.mp hy with hy | hy
      · exact hb0_ge y hy
      · exact hpv_v.trans (ha0_ge y hy)
    constructor
    · rw [htake, List.Sorted, List.pairwise_append]
      refine ⟨List.Pairwise.sublist (List.take_sublist _ _) hsel, ?_, ?_⟩
      · rw [List.pairwise_cons]
        exact ⟨fun y hy => hba_ge y (List.mem_of_mem_take hy),
          List.Pairwise.sublist (List.take_sublist _ _) hba⟩
      · intro x hx y hy
        have hx_lv : x ≤ s.getD li default := hu_le x hx
        rcases List.mem_cons.mp hy with rfl | hy
        · exact hx_lv.trans hlv_pv.le
        · exact hx_lv.trans (hlv_pv.le.trans (hba_ge y (List.mem_of_mem_take hy)))
    · rw [hdrop, List.Sorted, List.pairwise_append]
      have hT2_ge : ∀ y ∈ (((s.drop r).drop (ub + 1) ++ (s.take r).drop (li + 1)).drop
          (r - (li + 1))), s.getD li default ≤ y := by
        intro y hy
        refine le_of_lt (lt_of_lt_of_le hlv_pv (hba_ge y (List.mem_of_mem_drop hy)))
      refine ⟨List.Pairwise.sublist (List.take_sublist _ _) hpool, ?_, ?_⟩
      · rw [List.pairwise_cons]
        exact ⟨hT2_ge, List.Pairwise.sublist (List.drop_sublist _ _) hba⟩
      · intro x hx y hy
        have hx_lv : x ≤ s.getD li default := hP_le x hx
        rcases List.mem_cons.mp hy with rfl | hy
        · exact hx_lv
        · exact hx_lv.trans (hT2_ge y hy)

theorem invariant_of_sorted {s : List α} (h : s.Sorted (· ≤ ·)) (r : Nat) : Invariant r s :=
  ⟨List.Pairwise.sublist (List.take_sublist _ _) h,
   List.Pairwise.sublist (List.drop_sublist _ _) h⟩

theorem invariant_iterN {r : Nat} {s : List α} (h : Invariant r s) (k : Nat) :
    Invariant r (iterN r k s) := by
  induction k generalizing s with
  | zero => exact h
  | succ k ih => exact ih (invariant_step h)

theorem iterN_perm (r k : Nat) (s : List α) : (iterN r k s).Perm s := by
  induction k generalizing s with
  | zero => exact List.Perm.refl s
  | succ k ih => exact (ih _).trans (next_combination_perm r s)

theorem iterN_succ (r : Nat) : ∀ (k : Nat) (s : List α),
    iterN r (k + 1) s = (next_combination r (iterN r k s)).2 := by
  intro k
  induction k with
  | zero =>
    intro s
    rfl
  | succ k ih =>
    intro s
    exact ih ((next_combination r s).2)

theorem iterN4_succ (r : Nat) : ∀ (k : Nat) (s : List α),
    iterN4 r (k + 1) s = (next_combination4 r (iterN4 r k s)).2 := by
  intro k
  induction k with
  | zero =>
    intro s
    rfl
  | succ k ih =>
    intro s
    exact ih ((next_combination4 r s).2)

theorem lower_bound_eq_zero {l : List α} {v : α} (h : ¬ l.getD 0 default < v) :
    lower_bound l v = 0 := by
  cases l with
  | nil => rfl
  | cons x xs =>
    rw [List.getD_cons_zero] at h
    simp only [lower_bound, if_neg h]

/-- A successful call strictly increases the selection lexicographically. -/
theorem lex_step {r : Nat} {s : List α} (h : Invariant r s)
    (ht : (next_combination r s).1 = true) :
    List.Lex (· < ·) (s.take r) (((next_combination r s).2).take r) := by
  by_cases hg : r = 0 ∨ s.length ≤ r
  · rw [next_combination_stop hg] at ht
    simp at ht
  push_neg at hg
  have h0 : 0 < r := Nat.pos_of_ne_zero hg.1
  have hn : r < s.length := hg.2
  cases hcl : lower_bound (s.take r) (s.getD (s.length - 1) default) with
  | zero =>
    rw [next_combination_exhaust h0 hn hcl] at ht
    simp at ht
  | succ li =>
    obtain ⟨htake, -⟩ := next_combination_true_take_drop h0 hn hcl rfl
    rw [htake]
    have hli_lt : li < r := pivot_lt_r hn hcl
    conv_lhs => rw [← take_getD_drop (show li < (s.take r).length by
      rw [List.length_take]; omega)]
    rw [getD_take hli_lt]
    exact List.Lex.append_left _ (List.Lex.rel (pivot_lt_exchange hn hcl)) _

/-! ### Lexicographic order toolbox: pointwise bounds for sorted
subpermutations, first-difference characterisation of `List.Lex` -/

theorem getD_eq_of_take_eq {x y : List α} {i p : Nat} (h : x.take i = y.take i)
    (hp : p < i) : x.getD p default = y.getD p default := by
  rw [← getD_take hp default, h, getD_take hp default]


theorem sorted_getD_lt {l : List α} (h : l.Sorted (· < ·)) {i j : Nat}
    (hij : i < j) (hj : j < l.length) : l.getD i default < l.getD j default := by
  rw [List.getD_eq_getElem _ _ (lt_trans hij hj), List.getD_eq_getElem _ _ hj]
  exact List.pairwise_iff_getElem.mp h i j _ _ hij

/-- `Lex (<)` on lists of equal length is exactly: the lists agree on a proper
prefix and then the left one is smaller. -/
theorem lex_iff_exists : ∀ {x y : List α}, x.length = y.length →
    (List.Lex (· < ·) x y ↔
      ∃ i, i < x.length ∧ x.take i = y.take i ∧ x.getD i default < y.getD i default) := by
  intro x
  induction x with
  | nil =>
    intro y hlen
    have hy : y = [] := List.eq_nil_of_length_eq_zero hlen.symm
    subst hy
    constructor
    · intro h
      cases h
    · rintro ⟨i, hi, -, -⟩
      simp at hi
  | cons a x' ih =>
    intro y hlen
    cases y with
    | nil => simp at hlen
    | cons b y' =>
      constructor
      · intro h
        cases h with
        | cons h' =>
          obtain ⟨i, hi, ht, hg⟩ := (ih (by simpa using hlen)).mp h'
          exact ⟨i + 1, by simpa using hi, by simpa [List.take_succ_cons] using ht,
            by simpa [List.getD_cons_succ] using hg⟩
        | rel h' =>
          exact ⟨0, by simp, by simp, by simpa [List.getD_cons_zero] using h'⟩
      · rintro ⟨i, hi, ht, hg⟩
        cases i with
        | zero =>
          simp only [List.getD_cons_zero] at hg
          exact List.Lex.rel hg
        | succ i =>
          simp only [List.take_succ_cons] at ht
          obtain ⟨rfl, ht'⟩ : a = b ∧ x'.take i = y'.take i := by
            exact ⟨by injection ht, by injection ht⟩
          refine List.Lex.cons ((ih (by simpa using hlen)).mpr
            ⟨i, by simpa using hi, ht', by simpa [List.getD_cons_succ] using hg⟩)

/-- If the right list is pointwise `≤` the left one and the lengths agree,
the left list is not lexicographically smaller. -/
theorem not_lex_of_pointwise : ∀ {x y : List α}, x.length = y.length →
    (∀ j, j < x.length → y.getD j default ≤ x.getD j default) →
    ¬ List.Lex (· < ·) x y := by
  intro x
  induction x with
  | nil =>
    intro y hlen _ h
    have hy : y = [] := List.eq_nil_of_length_eq_zero hlen.symm
    subst hy
    cases h
  | cons a x' ih =>
    intro y hlen hpt h
    cases y with
    | nil => cases h
    | cons b y' =>
      cases h with
      | cons h' =>
        exact ih (by simpa using hlen)
          (fun j hj => by simpa [List.getD_cons_succ] using hpt (j + 1) (by simpa using hj)) h'
      | rel h' =>
        exact absurd h' (not_lt.mpr (by simpa [List.getD_cons_zero] using hpt 0 (by simp)))

theorem lex_irrefl (l : List α) (h : List.Lex (· < ·) l l) : False := by
  induction l with
  | nil => cases h
  | cons a l ih =>
    cases h with
    | cons h' => exact ih h'
    | rel h' => exact lt_irrefl a h'

theorem lex_trans : ∀ {l₁ l₂ l₃ : List α}, List.Lex (· < ·) l₁ l₂ →
    List.Lex (· < ·) l₂ l₃ → List.Lex (· < ·) l₁ l₃ := by
  intro l₁ l₂ l₃ h1
  induction h1 generalizing l₃ with
  | nil =>
    intro h2
    cases h2 with
    | cons h' => exact List.Lex.nil
    | rel h' => exact List.Lex.nil
  | cons h ih =>
    intro h2
    cases h2 with
    | cons h' => exact List.Lex.cons (ih h')
    | rel h' => exact List.Lex.rel h'
  | rel hab =>
    intro h2
    cases h2 with
    | cons h' => exact List.Lex.rel hab
    | rel h' => exact List.Lex.rel (hab.trans h')

theorem lex_total : ∀ (l₁ l₂ : List α), l₁ = l₂ ∨ List.Lex (· < ·) l₁ l₂
    ∨ List.Lex (· < ·) l₂ l₁ := by
  intro l₁
  induction l₁ with
  | nil =>
    intro l₂
    cases l₂ with
    | nil => exact Or.inl rfl
    | cons b l₂ => exact Or.inr (Or.inl List.Lex.nil)
  | cons a l₁ ih =>
    intro l₂
    cases l₂ with
    | nil => exact Or.inr (Or.inr List.Lex.nil)
    | cons b l₂ =>
      rcases lt_trichotomy a b with h | rfl | h
      · exact Or.inr (Or.inl (List.Lex.rel h))
      · rcases ih l₂ with rfl | h | h
        · exact Or.inl rfl
        · exact Or.inr (Or.inl (List.Lex.cons h))
        · exact Or.inr (Or.inr (List.Lex.cons h))
      · exact Or.inr (Or.inr (List.Lex.rel h))

theorem subperm_of_cons_not_mem {l t : List α} {a : α} (h : l.Subperm (a :: t))
    (ha : a ∉ l) : l.Subperm t := by
  rw [List.subperm_ext_iff] at h ⊢
  intro x hx
  have hxa : x ≠ a := fun he => ha (he ▸ hx)
  have := h x hx
  rwa [List.count_cons_of_ne hxa t] at this

/-- A strictly sorted subpermutation of a strictly sorted list is a sublist. -/
theorem sublist_of_subperm_of_sorted : ∀ {e d : List α}, d.Subperm e →
    d.Sorted (· < ·) → e.Sorted (· < ·) → d.Sublist e := by
  intro e
  induction e with
  | nil =>
    intro d hsub _ _
    rw [List.subperm_nil.mp hsub]
  | cons y e' ih =>
    intro d hsub hd he
    cases d with
    | nil => exact List.nil_sublist _
    | cons x d' =>
      by_cases hxy : x = y
      · subst hxy
        exact List.Sublist.cons₂ x (ih ((List.subperm_cons x).mp hsub) hd.of_cons he.of_cons)
      · have hx_mem : x ∈ y :: e' := hsub.subset (List.mem_cons_self x d')
        have hyx : y < x := by
          rcases List.mem_cons.mp hx_mem with h | h
          · exact absurd h hxy
          · exact List.rel_of_sorted_cons he x h
        have hnot : y ∉ x :: d' := by
          intro hmem
          rcases List.mem_cons.mp hmem with h | h
          · exact hxy h.symm
          · exact absurd (List.rel_of_sorted_cons hd y h) (lt_asymm hyx)
        exact (ih (subperm_of_cons_not_mem hsub hnot) hd he.of_cons).cons y

/-- Pointwise: a sorted subpermutation dominates the host's initial segment. -/
theorem subperm_pointwise_le : ∀ {e d : List α}, d.Subperm e →
    d.Sorted (· ≤ ·) → e.Sorted (· ≤ ·) →
    ∀ j, j < d.length → e.getD j default ≤ d.getD j default := by
  intro e
  induction e with
  | nil =>
    intro d hsub _ _ j hj
    rw [List.subperm_nil.mp hsub] at hj
    simp at hj
  | cons y e' ih =>
    intro d hsub hd he j hj
    cases d with
    | nil => simp at hj
    | cons x d' =>
      have hyx : y ≤ x := by
        have hx_mem : x ∈ y :: e' := hsub.subset (List.mem_cons_self x d')
        rcases List.mem_cons.mp hx_mem with h | h
        · exact le_of_eq h.symm
        · exact List.rel_of_sorted_cons he x h
      by_cases hxy : x = y
      · subst hxy
        have hsub' := (List.subperm_cons x).mp hsub
        cases j with
        | zero => simp [List.getD_cons_zero]
        | succ j =>
          simp only [List.getD_cons_succ]
          exact ih hsub' hd.of_cons he.of_cons j (by simpa using hj)
      · have hyx' : y < x := lt_of_le_of_ne hyx (fun h => hxy h.symm)
        have hnot : y ∉ x :: d' := by
          intro hmem
          rcases List.mem_cons.mp hmem with h | h
          · exact hxy h.symm
          · exact absurd (List.rel_of_sorted_cons hd y h) (not_le.mpr hyx')
        have hsub' : (x :: d').Subperm e' := subperm_of_cons_not_mem hsub hnot
        cases j with
        | zero =>
          simp only [List.getD_cons_zero]
          exact hyx
        | succ j =>
          simp only [List.getD_cons_succ]
          have hjlen : j < (x :: d').length := by
            simp only [List.length_cons] at hj ⊢
            omega
          have h1 := ih hsub' hd he.of_cons j hjlen
          have h2 : (x :: d').getD j default ≤ d'.getD j default := by
            have h3 := sorted_getD_le hd (Nat.le_succ j) hj
            rwa [List.getD_cons_succ] at h3
          exact le_trans h1 h2

/-- Pointwise, from the top: a sorted subpermutation is dominated by the
host's final segment. -/
theorem subperm_pointwise_ge : ∀ {e d : List α}, d.Subperm e →
    d.Sorted (· ≤ ·) → e.Sorted (· ≤ ·) →
    ∀ j, j < d.length → d.getD j default ≤ e.getD (e.length - d.length + j) default := by
  intro e
  induction e with
  | nil =>
    intro d hsub _ _ j hj
    rw [List.subperm_nil.mp hsub] at hj
    simp at hj
  | cons y e' ih =>
    intro d hsub hd he j hj
    cases d with
    | nil => simp at hj
    | cons x d' =>
      by_cases hxy : x = y
      · subst hxy
        have hsub' := (List.subperm_cons x).mp hsub
        have hlen' : d'.length ≤ e'.length := hsub'.length_le
        cases j with
        | zero =>
          have hidx : (x :: e').length - (x :: d').length + 0 = e'.length - d'.length := by
            simp only [List.length_cons]
            omega
          rw [hidx, List.getD_cons_zero]
          have h0 : (x :: e').getD 0 default
              ≤ (x :: e').getD (e'.length - d'.length) default :=
            sorted_getD_le he (Nat.zero_le _) (by simp only [List.length_cons]; omega)
          rwa [List.getD_cons_zero] at h0
        | succ j =>
          have hidx : (x :: e').length - (x :: d').length + (j + 1)
              = (e'.length - d'.length + j) + 1 := by
            simp only [List.length_cons]
            omega
          rw [hidx, List.getD_cons_succ, List.getD_cons_succ]
          exact ih hsub' hd.of_cons he.of_cons j
            (by simp only [List.length_cons] at hj; omega)
      · have hx_mem : x ∈ y :: e' := hsub.subset (List.mem_cons_self x d')
        have hyx : y < x := by
          rcases List.mem_cons.mp hx_mem with h | h
          · exact absurd h hxy
          · exact lt_of_le_of_ne (List.rel_of_sorted_cons he x h) (fun h2 => hxy h2.symm)
        have hnot : y ∉ x :: d' := by
          intro hmem
          rcases List.mem_cons.mp hmem with h | h
          · exact hxy h.symm
          · exact absurd (List.rel_of_sorted_cons hd y h) (not_le.mpr hyx)
        have hsub' : (x :: d').Subperm e' := subperm_of_cons_not_mem hsub hnot
        have hlen2 : (x :: d').length ≤ e'.length := hsub'.length_le
        have hidx : (y :: e').length - (x :: d').length + j
            = (e'.length - (x :: d').length + j) + 1 := by
          simp only [List.length_cons] at hlen2 ⊢
          omega
        rw [hidx, List.getD_cons_succ]
        exact ih hsub' hd he.of_cons j hj

theorem getD_append_length {u w : List α} (x : α) :
    (u ++ x :: w).getD u.length default = x := by
  induction u with
  | nil => rfl
  | cons a u ih => simpa [List.getD_cons_succ] using ih

theorem filter_eq_nil_of_le {l : List α} {v : α} (h : ∀ x ∈ l, x ≤ v) :
    l.filter (fun x => decide (v < x)) = [] := by
  rw [List.filter_eq_nil_iff]
  intro a ha
  simpa using not_lt.mpr (h a ha)

theorem filter_eq_self_of_lt {l : List α} {v : α} (h : ∀ x ∈ l, v < x) :
    l.filter (fun x => decide (v < x)) = l := by
  rw [List.filter_eq_self]
  intro a ha
  simpa using h a ha

theorem subperm_filter (p : α → Bool) {l₁ l₂ : List α} (h : l₁.Subperm l₂) :
    (l₁.filter p).Subperm (l₂.filter p) := by
  obtain ⟨l, hl1, hl2⟩ := h
  exact ⟨l.filter p, hl1.filter p, hl2.filter p⟩

theorem countP_eq_one_of_nodup {β : Type} [DecidableEq β] {l : List β} (hn : l.Nodup)
    {a : β} (ha : a ∈ l) : l.countP (fun x => decide (x = a)) = 1 := by
  induction l with
  | nil => simp at ha
  | cons b l ih =>
    rw [List.countP_cons]
    rcases List.mem_cons.mp ha with rfl | hmem
    · have hnot : a ∉ l := (List.nodup_cons.mp hn).1
      rw [List.countP_eq_zero.mpr ?_]
      · simp
      · intro x hx
        simp only [decide_eq_true_eq]
        exact fun he => hnot (he ▸ hx)
    · have hne : b ≠ a := by
        rintro rfl
        exact (List.nodup_cons.mp hn).1 hmem
      rw [ih (List.nodup_cons.mp hn).2 hmem]
      simp [hne]

theorem countP_or_of_disjoint {β : Type} {l : List β} {p q : β → Prop}
    [DecidablePred p] [DecidablePred q] (h : ∀ x ∈ l, ¬(p x ∧ q x)) :
    l.countP (fun x => decide (p x ∨ q x))
      = l.countP (fun x => decide (p x)) + l.countP (fun x => decide (q x)) := by
  induction l with
  | nil => rfl
  | cons b l ih =>
    simp only [List.countP_cons]
    rw [ih (fun x hx => h x (List.mem_cons_of_mem b hx))]
    have hb := h b (List.mem_cons_self b l)
    by_cases hp : p b
    · have hq : ¬ q b := fun hq => hb ⟨hp, hq⟩
      simp only [hp, hq, decide_eq_true_eq, true_or, or_false, decide_True, decide_False,
        if_true, if_false, decide_eq_false_iff_not, not_false_iff]
      simp [hp, hq]
      omega
    · by_cases hq : q b <;> simp [hp, hq] <;> omega

theorem sorted_le_of_lt {l : List α} (h : l.Sorted (· < ·)) : l.Sorted (· ≤ ·) :=
  List.Pairwise.imp (fun h2 => le_of_lt h2) h

theorem nodup_of_sorted_lt {l : List α} (h : l.Sorted (· < ·)) : l.Nodup :=
  List.Pairwise.imp (fun h2 => ne_of_lt h2) h

/-- No combination lies strictly between a selection and its successor: with
the state split as `(u ++ lv :: a0) ++ (P2 ++ pv :: b0)`, a strictly sorted
subpermutation `c` of the state that is lexicographically above the selection
`u ++ lv :: a0` is never below the successor selection
`u ++ pv :: (b0 ++ a0).take a0.length`. -/
theorem between_core {u a0 P2 b0 c : List α} {lv pv : α}
    (hu_le : ∀ x ∈ u, x ≤ lv)
    (hP_le : ∀ x ∈ P2, x ≤ lv)
    (hb0_gt : ∀ y ∈ b0, pv < y)
    (ha0_gt : ∀ y ∈ a0, pv < y)
    (hlv_pv : lv < pv)
    (hba_sorted : (b0 ++ a0).Sorted (· ≤ ·))
    (hc_sorted : c.Sorted (· < ·))
    (hcsub : c.Subperm ((u ++ lv :: a0) ++ (P2 ++ pv :: b0)))
    (hclen : c.length = u.length + 1 + a0.length)
    (h1 : List.Lex (· < ·) (u ++ lv :: a0) c)
    (h2 : List.Lex (· < ·) c (u ++ pv :: (b0 ++ a0).take a0.length)) : False := by
  have hm_le : a0.length ≤ (b0 ++ a0).length := by
    rw [List.length_append]
    omega
  have hw_len : ((b0 ++ a0).take a0.length).length = a0.length := by
    rw [List.length_take]
    exact min_eq_left hm_le
  have hsel_len : (u ++ lv :: a0).length = u.length + 1 + a0.length := by
    rw [List.length_append, List.length_cons]
    omega
  have hnsel_len : (u ++ pv :: (b0 ++ a0).take a0.length).length
      = u.length + 1 + a0.length := by
    rw [List.length_append, List.length_cons, hw_len]
    omega
  have hsel2 : (u ++ [lv]) ++ a0 = u ++ lv :: a0 := by
    rw [List.append_assoc, List.singleton_append]
  have hnsel2 : (u ++ [pv]) ++ (b0 ++ a0).take a0.length
      = u ++ pv :: (b0 ++ a0).take a0.length := by
    rw [List.append_assoc, List.singleton_append]
  have hul_len : (u ++ [lv]).length = u.length + 1 := by simp
  have hup_len : (u ++ [pv]).length = u.length + 1 := by simp
  have hsel_li : (u ++ lv :: a0).getD u.length default = lv := getD_append_length lv
  have hnsel_li : (u ++ pv :: (b0 ++ a0).take a0.length).getD u.length default = pv :=
    getD_append_length pv
  have hself_getD : ∀ p, p < u.length →
      (u ++ lv :: a0).getD p default = u.getD p default :=
    fun p hp => List.getD_append u (lv :: a0) default p hp
  have hnself_getD : ∀ p, p < u.length →
      (u ++ pv :: (b0 ++ a0).take a0.length).getD p default = u.getD p default :=
    fun p hp => List.getD_append u (pv :: (b0 ++ a0).take a0.length) default p hp
  obtain ⟨i, hi, ht1, hg1⟩ := (lex_iff_exists (by rw [hsel_len, hclen])).mp h1
  obtain ⟨i', hi', ht2, hg2⟩ := (lex_iff_exists (by rw [hclen, hnsel_len])).mp h2
  rw [hsel_len] at hi
  rw [hclen] at hi'
  rcases Nat.lt_trichotomy i u.length with hA | hB | hC
  · -- first difference with the old selection inside the common prefix `u`
    rcases Nat.lt_trichotomy i' i with hA1 | hA2 | hA3
    · have e1 : (u ++ lv :: a0).getD i' default = c.getD i' default :=
        getD_eq_of_take_eq ht1 hA1
      rw [hself_getD i' (by omega)] at e1
      rw [hnself_getD i' (by omega), ← e1] at hg2
      exact lt_irrefl _ hg2
    · subst hA2
      rw [hnself_getD i' hA] at hg2
      rw [hself_getD i' hA] at hg1
      exact lt_irrefl _ (hg1.trans hg2)
    · have e1 : c.getD i default
          = (u ++ pv :: (b0 ++ a0).take a0.length).getD i default :=
        getD_eq_of_take_eq ht2 hA3
      rw [hnself_getD i hA] at e1
      rw [hself_getD i hA, e1] at hg1
      exact lt_irrefl _ hg1
  · -- first difference at the pivot position
    subst hB
    rw [hsel_li] at hg1
    have hcli_lt : u.length < c.length := by
      rw [hclen]
      omega
    have hpv_cli : pv ≤ c.getD u.length default := by
      have hmem : c.getD u.length default ∈ (u ++ lv :: a0) ++ (P2 ++ pv :: b0) :=
        hcsub.subset (getD_mem hcli_lt)
      rcases List.mem_append.mp hmem with hm1 | hm2
      · rcases List.mem_append.mp hm1 with hm3 | hm4
        · exact absurd hg1 (not_lt.mpr (hu_le _ hm3))
        · rcases List.mem_cons.mp hm4 with hm5 | hm6
          · rw [hm5] at hg1
            exact absurd hg1 (lt_irrefl lv)
          · exact (ha0_gt _ hm6).le
      · rcases List.mem_append.mp hm2 with hm3 | hm4
        · exact absurd hg1 (not_lt.mpr (hP_le _ hm3))
        · rcases List.mem_cons.mp hm4 with hm5 | hm6
          · exact le_of_eq hm5.symm
          · exact (hb0_gt _ hm6).le
    rcases Nat.lt_trichotomy i' u.length with hB1 | hB2 | hB3
    · have e1 : (u ++ lv :: a0).getD i' default = c.getD i' default :=
        getD_eq_of_take_eq ht1 hB1
      rw [hself_getD i' hB1] at e1
      rw [hnself_getD i' hB1, ← e1] at hg2
      exact lt_irrefl _ hg2
    · subst hB2
      rw [hnsel_li] at hg2
      exact absurd hpv_cli (not_le.mpr hg2)
    · -- the tail of `c` would be lexicographically below the minimal tail
      have hcli_pv : c.getD u.length default = pv := by
        have e1 : c.getD u.length default
            = (u ++ pv :: (b0 ++ a0).take a0.length).getD u.length default :=
          getD_eq_of_take_eq ht2 hB3
        rw [hnsel_li] at e1
        exact e1
      have hc_take : c.take (u.length + 1) = u ++ [pv] := by
        have e := congrArg (List.take (u.length + 1)) ht2
        rw [List.take_take, List.take_take, min_eq_left (by omega)] at e
        rw [e, ← hnsel2, List.take_left' hup_len]
      have hc_eq : c = (u ++ [pv]) ++ c.drop (u.length + 1) := by
        conv_lhs => rw [← List.take_append_drop (u.length + 1) c]
        rw [hc_take]
      have hcrest_len : (c.drop (u.length + 1)).length = a0.length := by
        rw [List.length_drop, hclen]
        omega
      have hcrest_gt : ∀ y ∈ c.drop (u.length + 1), pv < y := by
        intro y hy
        obtain ⟨j, hj1, hj2, rfl⟩ := mem_drop_imp hy
        rw [← hcli_pv]
        exact sorted_getD_lt hc_sorted (by omega) hj2
      have hdw : (u ++ pv :: (b0 ++ a0).take a0.length).drop (u.length + 1)
          = (b0 ++ a0).take a0.length := by
        rw [← hnsel2, List.drop_left' hup_len]
      have hlex_tail : List.Lex (· < ·) (c.drop (u.length + 1))
          ((b0 ++ a0).take a0.length) := by
        refine (lex_iff_exists (by rw [hcrest_len, hw_len])).mpr
          ⟨i' - (u.length + 1), by rw [hcrest_len]; omega, ?_, ?_⟩
        · have e := congrArg (List.drop (u.length + 1)) ht2
          rw [List.drop_take, List.drop_take, hdw] at e
          exact e
        · have e1 : (c.drop (u.length + 1)).getD (i' - (u.length + 1)) default
              = c.getD i' default := by
            rw [getD_drop]
            congr 1
            omega
          have e2 : (u ++ pv :: (b0 ++ a0).take a0.length).getD i' default
              = ((b0 ++ a0).take a0.length).getD (i' - (u.length + 1)) default := by
            rw [← hnsel2, List.getD_append_right (u ++ [pv]) ((b0 ++ a0).take a0.length)
              default i' (by rw [hup_len]; omega), hup_len]
          rw [e1, ← e2]
          exact hg2
      have hu_pv : ∀ x ∈ u ++ [pv], x ≤ pv := by
        intro x hx
        rcases List.mem_append.mp hx with hx | hx
        · exact (hu_le x hx).trans hlv_pv.le
        · exact le_of_eq (List.mem_singleton.mp hx)
      have hfilter_c : c.filter (fun x => decide (pv < x)) = c.drop (u.length + 1) := by
        conv_lhs => rw [hc_eq]
        rw [List.filter_append, filter_eq_nil_of_le hu_pv,
          filter_eq_self_of_lt hcrest_gt, List.nil_append]
      have hu_le_pv : ∀ x ∈ u, x ≤ pv := fun x hx => (hu_le x hx).trans hlv_pv.le
      have hlv_le_pv : ∀ x ∈ [lv], x ≤ pv := by
        intro x hx
        rw [List.mem_singleton.mp hx]
        exact hlv_pv.le
      have hP_le_pv : ∀ x ∈ P2, x ≤ pv := fun x hx => (hP_le x hx).trans hlv_pv.le
      have hpv_le_pv : ∀ x ∈ [pv], x ≤ pv := by
        intro x hx
        rw [List.mem_singleton.mp hx]
      have hfilter_s : ((u ++ lv :: a0) ++ (P2 ++ pv :: b0)).filter
          (fun x => decide (pv < x)) = a0 ++ b0 := by
        rw [show (u ++ lv :: a0) ++ (P2 ++ pv :: b0)
            = (u ++ ([lv] ++ a0)) ++ (P2 ++ ([pv] ++ b0)) by
          rw [List.singleton_append, List.singleton_append]]
        simp only [List.filter_append]
        rw [filter_eq_nil_of_le hu_le_pv, filter_eq_nil_of_le hlv_le_pv,
          filter_eq_nil_of_le hP_le_pv, filter_eq_nil_of_le hpv_le_pv,
          filter_eq_self_of_lt ha0_gt, filter_eq_self_of_lt hb0_gt]
        simp
      have hsub1 : (c.drop (u.length + 1)).Subperm (a0 ++ b0) := by
        have h5 := subperm_filter (fun x => decide (pv < x)) hcsub
        rwa [hfilter_c, hfilter_s] at h5
      have hsub2 : (c.drop (u.length + 1)).Subperm (b0 ++ a0) :=
        hsub1.trans (List.perm_append_comm).subperm
      have hcrest_sorted : (c.drop (u.length + 1)).Sorted (· ≤ ·) :=
        List.Pairwise.sublist (List.drop_sublist _ _) (sorted_le_of_lt hc_sorted)
      have hpt := subperm_pointwise_le hsub2 hcrest_sorted hba_sorted
      refine not_lex_of_pointwise (by rw [hcrest_len, hw_len]) ?_ hlex_tail
      intro j hj
      rw [hcrest_len] at hj
      rw [getD_take hj default]
      exact hpt j (by rw [hcrest_len]; exact hj)
  · -- first difference after the pivot position: impossible already against
    -- the old selection, whose tail is pointwise maximal
    have hcli_lv : c.getD u.length default = lv := by
      have e1 : (u ++ lv :: a0).getD u.length default = c.getD u.length default :=
        getD_eq_of_take_eq ht1 hC
      rw [hsel_li] at e1
      exact e1.symm
    have hc_take : c.take (u.length + 1) = u ++ [lv] := by
      have e := congrArg (List.take (u.length + 1)) ht1
      rw [List.take_take, List.take_take, min_eq_left (by omega)] at e
      rw [← e, ← hsel2, List.take_left' hul_len]
    have hc_eq : c = (u ++ [lv]) ++ c.drop (u.length + 1) := by
      conv_lhs => rw [← List.take_append_drop (u.length + 1) c]
      rw [hc_take]
    have hcrest_len : (c.drop (u.length + 1)).length = a0.length := by
      rw [List.length_drop, hclen]
      omega
    have hcrest_gt : ∀ y ∈ c.drop (u.length + 1), lv < y := by
      intro y hy
      obtain ⟨j, hj1, hj2, rfl⟩ := mem_drop_imp hy
      rw [← hcli_lv]
      exact sorted_getD_lt hc_sorted (by omega) hj2
    have hsel_drop : (u ++ lv :: a0).drop (u.length + 1) = a0 := by
      rw [← hsel2, List.drop_left' hul_len]
    have hlex_tail : List.Lex (· < ·) a0 (c.drop (u.length + 1)) := by
      refine (lex_iff_exists hcrest_len.symm).mpr
        ⟨i - (u.length + 1), by omega, ?_, ?_⟩
      · have e := congrArg (List.drop (u.length + 1)) ht1
        rw [List.drop_take, List.drop_take, hsel_drop] at e
        exact e
      · have e1 : (u ++ lv :: a0).getD i default
            = a0.getD (i - (u.length + 1)) default := by
          rw [← hsel2, List.getD_append_right (u ++ [lv]) a0 default i
            (by rw [hul_len]; omega), hul_len]
        have e2 : (c.drop (u.length + 1)).getD (i - (u.length + 1)) default
            = c.getD i default := by
          rw [getD_drop]
          congr 1
          omega
        rw [← e1, e2]
        exact hg1
    have hul_le : ∀ x ∈ u ++ [lv], x ≤ lv := by
      intro x hx
      rcases List.mem_append.mp hx with hx | hx
      · exact hu_le x hx
      · exact le_of_eq (List.mem_singleton.mp hx)
    have hfilter_c : c.filter (fun x => decide (lv < x)) = c.drop (u.length + 1) := by
      conv_lhs => rw [hc_eq]
      rw [List.filter_append, filter_eq_nil_of_le hul_le,
        filter_eq_self_of_lt hcrest_gt, List.nil_append]
    have hlv_le_lv : ∀ x ∈ [lv], x ≤ lv := by
      intro x hx
      rw [List.mem_singleton.mp hx]
    have ha0_gt_lv : ∀ y ∈ a0, lv < y := fun y hy => hlv_pv.trans (ha0_gt y hy)
    have hb0_gt_lv : ∀ y ∈ b0, lv < y := fun y hy => hlv_pv.trans (hb0_gt y hy)
    have hpv_gt_lv : ∀ y ∈ [pv], lv < y := by
      intro y hy
      rw [List.mem_singleton.mp hy]
      exact hlv_pv
    have hfilter_s : ((u ++ lv :: a0) ++ (P2 ++ pv :: b0)).filter
        (fun x => decide (lv < x)) = a0 ++ ([pv] ++ b0) := by
      rw [show (u ++ lv :: a0) ++ (P2 ++ pv :: b0)
          = (u ++ ([lv] ++ a0)) ++ (P2 ++ ([pv] ++ b0)) by
        rw [List.singleton_append, List.singleton_append]]
      simp only [List.filter_append]
      rw [filter_eq_nil_of_le hu_le, filter_eq_nil_of_le hlv_le_lv,
        filter_eq_nil_of_le hP_le, filter_eq_self_of_lt ha0_gt_lv,
        filter_eq_self_of_lt hpv_gt_lv, filter_eq_self_of_lt hb0_gt_lv]
      simp
    have hsub1 : (c.drop (u.length + 1)).Subperm (a0 ++ ([pv] ++ b0)) := by
      have h5 := subperm_filter (fun x => decide (lv < x)) hcsub
      rwa [hfilter_c, hfilter_s] at h5
    have hsub2 : (c.drop (u.length + 1)).Subperm (([pv] ++ b0) ++ a0) :=
      hsub1.trans (List.perm_append_comm).subperm
    have hE_sorted : (([pv] ++ b0) ++ a0).Sorted (· ≤ ·) := by
      rw [List.singleton_append, List.cons_append, List.Sorted, List.pairwise_cons]
      refine ⟨?_, hba_sorted⟩
      intro y hy
      rcases List.mem_append.mp hy with hy | hy
      · exact (hb0_gt y hy).le
      · exact (ha0_gt y hy).le
    have hcrest_sorted : (c.drop (u.length + 1)).Sorted (· ≤ ·) :=
      List.Pairwise.sublist (List.drop_sublist _ _) (sorted_le_of_lt hc_sorted)
    have hpt := subperm_pointwise_ge hsub2 hcrest_sorted hE_sorted
    refine not_lex_of_pointwise hcrest_len.symm ?_ hlex_tail
    intro j hj
    have h6 := hpt j (by rw [hcrest_len]; exact hj)
    have hidx : (([pv] ++ b0) ++ a0).length - (c.drop (u.length + 1)).length + j
        = ([pv] ++ b0).length + j := by
      rw [hcrest_len, List.length_append]
      omega
    rw [hidx, List.getD_append_right ([pv] ++ b0) a0 default _ (by omega),
      Nat.add_sub_cancel_left] at h6
    exact h6

/-- In an invariant state that is a permutation of a strictly sorted base, a
successful call advances the selection to its immediate lexicographic
successor among the `r`-sublists of the base: no sublist fits strictly
between the old and the new selection. -/
theorem succ_no_between {s s0 : List α} {r : Nat} (hperm : s.Perm s0)
    (hns : s0.Sorted (· < ·)) (hsel : (s.take r).Sorted (· ≤ ·))
    (hpool : (s.drop r).Sorted (· ≤ ·))
    (ht : (next_combination r s).1 = true)
    {c : List α} (hcs : c.Sublist s0) (hclen : c.length = r)
    (h1 : List.Lex (· < ·) (s.take r) c) :
    ¬ List.Lex (· < ·) c (((next_combination r s).2).take r) := by
  intro h2
  by_cases hg : r = 0 ∨ s.length ≤ r
  · rw [next_combination_stop hg] at ht
    simp at ht
  push_neg at hg
  have h0 : 0 < r := Nat.pos_of_ne_zero hg.1
  have hn : r < s.length := hg.2
  cases hcl : lower_bound (s.take r) (s.getD (s.length - 1) default) with
  | zero =>
    rw [next_combination_exhaust h0 hn hcl] at ht
    simp at ht
  | succ li =>
    obtain ⟨htake, -⟩ := next_combination_true_take_drop h0 hn hcl rfl
    have hli_lt : li < r := pivot_lt_r hn hcl
    have hub_lt : upper_bound (s.drop r) (s.getD li default) < s.length - r :=
      exchange_lt_pool hn hcl
    have hlv_pv : s.getD li default
        < (s.drop r).getD (upper_bound (s.drop r) (s.getD li default)) default :=
      pivot_lt_exchange hn hcl
    have hlen_sel : (s.take r).length = r := by
      rw [List.length_take]
      omega
    have hpool_len : (s.drop r).length = s.length - r := List.length_drop _ _
    have hlv_v : s.getD li default < s.getD (s.length - 1) default := pivot_lt_last hn hcl
    have hlast : s.getD (s.length - 1) default
        = (s.drop r).getD ((s.drop r).length - 1) default := by
      rw [getD_drop, List.length_drop]
      congr 1
      omega
    have hpv_v : (s.drop r).getD (upper_bound (s.drop r) (s.getD li default)) default
        ≤ s.getD (s.length - 1) default := by
      rw [hlast]
      exact sorted_getD_le hpool (by omega) (by omega)
    have hu_le : ∀ x ∈ (s.take r).take li, x ≤ s.getD li default := by
      intro x hx
      obtain ⟨i, hik, hil, rfl⟩ := mem_take_imp hx
      rw [← getD_take hli_lt default]
      exact sorted_getD_le hsel (by omega) (by omega)
    have hP_le : ∀ x ∈ (s.drop r).take (upper_bound (s.drop r) (s.getD li default)),
        x ≤ s.getD li default := by
      intro x hx
      obtain ⟨i, hik, hil, rfl⟩ := mem_take_imp hx
      exact getD_le_of_lt_upper_bound (by omega)
    have ha0_ge : ∀ y ∈ (s.take r).drop (li + 1), s.getD (s.length - 1) default ≤ y := by
      intro y hy
      obtain ⟨j, hj1, hj2, rfl⟩ := mem_drop_imp hy
      have h5 := @lower_bound_getD_ge α _ _ (s.take r)
        (s.getD (s.length - 1) default) (by rw [hcl]; omega)
      rw [hcl] at h5
      exact h5.trans (sorted_getD_le hsel (by omega) hj2)
    have hb0_le : ∀ y ∈ (s.drop r).drop (upper_bound (s.drop r) (s.getD li default) + 1),
        y ≤ s.getD (s.length - 1) default := by
      intro y hy
      rw [hlast]
      exact sorted_le_last_of_mem hpool (List.mem_of_mem_drop hy)
    have hba : ((s.drop r).drop (upper_bound (s.drop r) (s.getD li default) + 1)
        ++ (s.take r).drop (li + 1)).Sorted (· ≤ ·) := by
      rw [List.Sorted, List.pairwise_append]
      exact ⟨List.Pairwise.sublist (List.drop_sublist _ _) hpool,
        List.Pairwise.sublist (List.drop_sublist _ _) hsel,
        fun x hx y hy => (hb0_le x hx).trans (ha0_ge y hy)⟩
    have hnodup : s.Nodup := (hperm.nodup_iff).mpr (nodup_of_sorted_lt hns)
    have hdisj : List.Disjoint (s.take r) (s.drop r) := by
      have h7 : (s.take r ++ s.drop r).Nodup := by
        rw [List.take_append_drop]
        exact hnodup
      exact (List.nodup_append.mp h7).2.2
    have hpool_nodup : (s.drop r).Nodup :=
      List.Nodup.sublist (List.drop_sublist r s) hnodup
    have hpool_lt : (s.drop r).Sorted (· < ·) := List.Sorted.lt_of_le hpool hpool_nodup
    have hb0_gt : ∀ y ∈ (s.drop r).drop (upper_bound (s.drop r) (s.getD li default) + 1),
        (s.drop r).getD (upper_bound (s.drop r) (s.getD li default)) default < y := by
      intro y hy
      obtain ⟨j, hj1, hj2, rfl⟩ := mem_drop_imp hy
      exact sorted_getD_lt hpool_lt (by omega) hj2
    have ha0_gt : ∀ y ∈ (s.take r).drop (li + 1),
        (s.drop r).getD (upper_bound (s.drop r) (s.getD li default)) default < y := by
      intro y hy
      have hy_sel : y ∈ s.take r := List.mem_of_mem_drop hy
      have hpv_mem : (s.drop r).getD (upper_bound (s.drop r) (s.getD li default)) default
          ∈ s.drop r := getD_mem (by omega)
      have hne : y ≠ (s.drop r).getD (upper_bound (s.drop r) (s.getD li default)) default :=
        fun he => hdisj hy_sel (he ▸ hpv_mem)
      exact lt_of_le_of_ne (hpv_v.trans (ha0_ge y hy)) (fun he => hne he.symm)
    have hc_sorted : c.Sorted (· < ·) := List.Pairwise.sublist hcs hns
    have hsel_eq := (take_getD_drop (show li < (s.take r).length by omega)).symm
    rw [getD_take hli_lt] at hsel_eq
    have hpool_eq := (take_getD_drop (show upper_bound (s.drop r) (s.getD li default)
        < (s.drop r).length by omega)).symm
    have hs_eq : s = ((s.take r).take li
          ++ s.getD li default :: (s.take r).drop (li + 1))
        ++ ((s.drop r).take (upper_bound (s.drop r) (s.getD li default))
          ++ (s.drop r).getD (upper_bound (s.drop r) (s.getD li default)) default
            :: (s.drop r).drop (upper_bound (s.drop r) (s.getD li default) + 1)) := by
      rw [← hsel_eq, ← hpool_eq, List.take_append_drop]
    have hcsub : c.Subperm s := hcs.subperm.trans hperm.symm.subperm
    rw [hs_eq] at hcsub
    have hclen2 : c.length
        = ((s.take r).take li).length + 1 + ((s.take r).drop (li + 1)).length := by
      rw [hclen, List.length_take, List.length_drop, hlen_sel, min_eq_left hli_lt.le]
      omega
    have hlen_a0 : ((s.take r).drop (li + 1)).length = r - (li + 1) := by
      rw [List.length_drop, hlen_sel]
    rw [hsel_eq] at h1
    rw [htake, ← hlen_a0] at h2
    exact between_core hu_le hP_le hb0_gt ha0_gt hlv_pv hba hc_sorted hcsub hclen2 h1 h2

/-! ### Counting: rank of a selection among all r-sublists of the base -/

/-- The rank of a selection `c` among the `r`-element sublists of the base
sequence `s0`: how many of them are lexicographically below `c`. -/
def rank (r : Nat) (s0 c : List α) : Nat :=
  (List.sublistsLen r s0).countP (fun d => decide (List.Lex (· < ·) d c))

/-- The selection of any invariant state that permutes the strictly sorted
base is one of the `r`-sublists of the base. -/
theorem sel_mem_combs {s s0 : List α} {r : Nat} (hperm : s.Perm s0)
    (hns : s0.Sorted (· < ·)) (hsel : (s.take r).Sorted (· ≤ ·)) (hr : r ≤ s.length) :
    s.take r ∈ List.sublistsLen r s0 := by
  have hnodup : s.Nodup := (hperm.nodup_iff).mpr (nodup_of_sorted_lt hns)
  have htn : (s.take r).Nodup := List.Nodup.sublist (List.take_sublist r s) hnodup
  have hstrict : (s.take r).Sorted (· < ·) := List.Sorted.lt_of_le hsel htn
  have hsub : (s.take r).Subperm s0 :=
    (List.take_sublist r s).subperm.trans hperm.subperm
  refine List.mem_sublistsLen.mpr ⟨sublist_of_subperm_of_sorted hsub hstrict hns, ?_⟩
  rw [List.length_take]
  omega

/-- The initial selection `s0.take r` is lexicographically minimal. -/
theorem rank_base {s0 : List α} (hns : s0.Sorted (· < ·)) {r : Nat}
    (hr : r ≤ s0.length) : rank r s0 (s0.take r) = 0 := by
  rw [rank, List.countP_eq_zero]
  intro c hc
  simp only [decide_eq_true_eq]
  obtain ⟨hcs, hclen⟩ := List.mem_sublistsLen.mp hc
  have hc_sorted : c.Sorted (· < ·) := List.Pairwise.sublist hcs hns
  have hpt := subperm_pointwise_le hcs.subperm (sorted_le_of_lt hc_sorted)
    (sorted_le_of_lt hns)
  have hlen : c.length = (s0.take r).length := by
    rw [hclen, List.length_take]
    omega
  refine not_lex_of_pointwise hlen ?_
  intro j hj
  rw [getD_take (by omega : j < r) default]
  exact hpt j hj

theorem rank_lt_length {s0 c : List α} {r : Nat} (hns : s0.Sorted (· < ·))
    (hc : c ∈ List.sublistsLen r s0) :
    rank r s0 c < (List.sublistsLen r s0).length := by
  have hdisj : ∀ d ∈ List.sublistsLen r s0,
      ¬ (List.Lex (· < ·) d c ∧ d = c) := by
    rintro d hd ⟨hl, rfl⟩
    exact lex_irrefl _ hl
  have hor := countP_or_of_disjoint hdisj
  have hone : (List.sublistsLen r s0).countP (fun d => decide (d = c)) = 1 :=
    countP_eq_one_of_nodup (List.nodup_sublistsLen r (nodup_of_sorted_lt hns)) hc
  have hle : (List.sublistsLen r s0).countP
        (fun d => decide (List.Lex (· < ·) d c ∨ d = c))
      ≤ (List.sublistsLen r s0).length :=
    List.countP_le_length (fun d => decide (List.Lex (· < ·) d c ∨ d = c))
  rw [hor, hone] at hle
  rw [rank]
  omega

/-- The full-range sorted shape at exhaustion (the pivot search returned
`first`): pool followed by selection is entirely ascending. -/
theorem exhaust_sorted {s : List α} {r : Nat} (h0 : 0 < r) (hn : r < s.length)
    (hsel : (s.take r).Sorted (· ≤ ·)) (hpool : (s.drop r).Sorted (· ≤ ·))
    (hcl : lower_bound (s.take r) (s.getD (s.length - 1) default) = 0) :
    (s.drop r ++ s.take r).Sorted (· ≤ ·) := by
  have hlen_sel : (s.take r).length = r := by
    rw [List.length_take]
    omega
  have hlast : s.getD (s.length - 1) default
      = (s.drop r).getD ((s.drop r).length - 1) default := by
    rw [getD_drop, List.length_drop]
    congr 1
    omega
  rw [List.Sorted, List.pairwise_append]
  refine ⟨hpool, hsel, fun x hx y hy => ?_⟩
  have h1 : x ≤ (s.drop r).getD ((s.drop r).length - 1) default :=
    sorted_le_last_of_mem hpool hx
  have h2 : s.getD (s.length - 1) default ≤ (s.take r).getD 0 default := by
    have h3 := @lower_bound_getD_ge α _ _ (s.take r)
      (s.getD (s.length - 1) default) (by rw [hcl, hlen_sel]; omega)
    rwa [hcl] at h3
  have h4 : (s.take r).getD 0 default ≤ y := by
    refine sorted_getD_le_of_mem hsel (by rw [hlen_sel]; omega) ?_
    rwa [List.drop_zero]
  calc x ≤ (s.drop r).getD ((s.drop r).length - 1) default := h1
    _ = s.getD (s.length - 1) default := hlast.symm
    _ ≤ (s.take r).getD 0 default := h2
    _ ≤ y := h4

/-- When the call reports exhaustion, the selection was the lexicographically
last sublist: its rank is the number of sublists minus one. -/
theorem rank_last {s s0 : List α} {r : Nat} (hperm : s.Perm s0)
    (hns : s0.Sorted (· < ·)) (hsel : (s.take r).Sorted (· ≤ ·))
    (hpool : (s.drop r).Sorted (· ≤ ·)) (h0 : 0 < r) (hn : r < s0.length)
    (hf : (next_combination r s).1 = false) :
    rank r s0 (s.take r) = (List.sublistsLen r s0).length - 1 := by
  have hlen_s : s.length = s0.length := hperm.length_eq
  have hn2 : r < s.length := by omega
  have hcl : lower_bound (s.take r) (s.getD (s.length - 1) default) = 0 := by
    cases hcl : lower_bound (s.take r) (s.getD (s.length - 1) default) with
    | zero => rfl
    | succ li =>
      rw [next_combination_true_eq h0 hn2 hcl rfl] at hf
      simp at hf
  have hfull : (s.drop r ++ s.take r).Sorted (· ≤ ·) :=
    exhaust_sorted h0 hn2 hsel hpool hcl
  have hperm2 : (s.drop r ++ s.take r).Perm s0 := by
    have e : (s.drop r ++ s.take r).Perm (s.take r ++ s.drop r) := List.perm_append_comm
    rw [List.take_append_drop] at e
    exact e.trans hperm
  have hs0_eq : s0 = s.drop r ++ s.take r :=
    (List.eq_of_perm_of_sorted hperm2 hfull (sorted_le_of_lt hns)).symm
  have hmax : ∀ c ∈ List.sublistsLen r s0, ¬ List.Lex (· < ·) (s.take r) c := by
    intro c hc
    obtain ⟨hcs, hclen⟩ := List.mem_sublistsLen.mp hc
    have hc_sorted : c.Sorted (· < ·) := List.Pairwise.sublist hcs hns
    have hpt := subperm_pointwise_ge hcs.subperm (sorted_le_of_lt hc_sorted)
      (sorted_le_of_lt hns)
    have hlen_eq : (s.take r).length = c.length := by
      rw [List.length_take, hclen]
      omega
    refine not_lex_of_pointwise hlen_eq ?_
    intro j hj
    rw [hlen_eq] at hj
    have h6 := hpt j hj
    have hidx : s0.length - c.length + j = (s.drop r).length + j := by
      rw [hclen, List.length_drop, ← hlen_s]
    rw [hidx, hs0_eq] at h6
    rw [List.getD_append_right (s.drop r) (s.take r) default ((s.drop r).length + j)
      (by omega), Nat.add_sub_cancel_left] at h6
    exact h6
  have hself : s.take r ∈ List.sublistsLen r s0 :=
    sel_mem_combs hperm hns hsel (le_of_lt hn2)
  have hall : (List.sublistsLen r s0).countP
      (fun d => decide (List.Lex (· < ·) d (s.take r) ∨ d = s.take r))
      = (List.sublistsLen r s0).length := by
    rw [List.countP_eq_length]
    intro d hd
    simp only [decide_eq_true_eq]
    rcases lex_total d (s.take r) with he | hl | hl
    · exact Or.inr he
    · exact Or.inl hl
    · exact absurd hl (hmax d hd)
  have hdisj : ∀ d ∈ List.sublistsLen r s0,
      ¬ (List.Lex (· < ·) d (s.take r) ∧ d = s.take r) := by
    rintro d hd ⟨hl, rfl⟩
    exact lex_irrefl _ hl
  have hor := countP_or_of_disjoint hdisj
  have hone : (List.sublistsLen r s0).countP (fun d => decide (d = s.take r)) = 1 :=
    countP_eq_one_of_nodup (List.nodup_sublistsLen r (nodup_of_sorted_lt hns)) hself
  rw [hor, hone] at hall
  rw [rank]
  omega

/-- A successful call increases the rank of the selection by exactly one. -/
theorem rank_step {s s0 : List α} {r : Nat} (hperm : s.Perm s0)
    (hns : s0.Sorted (· < ·)) (hsel : (s.take r).Sorted (· ≤ ·))
    (hpool : (s.drop r).Sorted (· ≤ ·))
    (ht : (next_combination r s).1 = true) :
    rank r s0 (((next_combination r s).2).take r) = rank r s0 (s.take r) + 1 := by
  have hr_le : r ≤ s.length := by
    by_cases hg : s.length ≤ r
    · rw [next_combination_stop (Or.inr hg)] at ht
      simp at ht
    · omega
  have hiff : ∀ d ∈ List.sublistsLen r s0,
      (List.Lex (· < ·) d (((next_combination r s).2).take r)
        ↔ (List.Lex (· < ·) d (s.take r) ∨ d = s.take r)) := by
    intro d hd
    obtain ⟨hds, hdlen⟩ := List.mem_sublistsLen.mp hd
    constructor
    · intro hl
      rcases lex_total d (s.take r) with he | h | h
      · exact Or.inr he
      · exact Or.inl h
      · exact absurd hl (succ_no_between hperm hns hsel hpool ht hds hdlen h)
    · intro h
      rcases h with h | h
      · exact lex_trans h (lex_step ⟨hsel, hpool⟩ ht)
      · rw [h]
        exact lex_step ⟨hsel, hpool⟩ ht
  have hcongr : (List.sublistsLen r s0).countP
      (fun d => decide (List.Lex (· < ·) d (((next_combination r s).2).take r)))
      = (List.sublistsLen r s0).countP
        (fun d => decide (List.Lex (· < ·) d (s.take r) ∨ d = s.take r)) := by
    refine List.countP_congr ?_
    intro d hd
    simp only [decide_eq_true_eq]
    exact hiff d hd
  have hdisj : ∀ d ∈ List.sublistsLen r s0,
      ¬ (List.Lex (· < ·) d (s.take r) ∧ d = s.take r) := by
    rintro d hd ⟨hl, rfl⟩
    exact lex_irrefl _ hl
  have hor := countP_or_of_disjoint hdisj
  have hone : (List.sublistsLen r s0).countP (fun d => decide (d = s.take r)) = 1 :=
    countP_eq_one_of_nodup (List.nodup_sublistsLen r (nodup_of_sorted_lt hns))
      (sel_mem_combs hperm hns hsel hr_le)
  rw [rank, rank, hcongr, hor, hone]

/-- The main induction: after `k` calls (within range) the state still
permutes the base, keeps the invariant, and its selection has rank `k`. -/
theorem good_rank {s0 : List α} (hns : s0.Sorted (· < ·)) {r : Nat} (h0 : 0 < r)
    (hn : r < s0.length) :
    ∀ k, k ≤ (List.sublistsLen r s0).length - 1 →
      (iterN r k s0).Perm s0 ∧ Invariant r (iterN r k s0)
        ∧ rank r s0 ((iterN r k s0).take r) = k := by
  intro k
  induction k with
  | zero =>
    intro _
    exact ⟨List.Perm.refl s0, invariant_of_sorted (sorted_le_of_lt hns) r,
      rank_base hns (le_of_lt hn)⟩
  | succ k ih =>
    intro hk
    obtain ⟨hperm, hinv, hrank⟩ := ih (by omega)
    obtain ⟨hsel, hpool⟩ := hinv
    have ht : (next_combination r (iterN r k s0)).1 = true := by
      cases htf : (next_combination r (iterN r k s0)).1 with
      | true => rfl
      | false =>
        have hlast := rank_last hperm hns hsel hpool h0 hn htf
        omega
    refine ⟨?_, ?_, ?_⟩
    · rw [iterN_succ]
      exact (next_combination_perm r (iterN r k s0)).trans hperm
    · rw [iterN_succ]
      exact invariant_step ⟨hsel, hpool⟩
    · rw [iterN_succ, rank_step hperm hns hsel hpool ht, hrank]

/-- The selections strictly increase lexicographically along the run. -/
theorem lex_chain {s0 : List α} (hns : s0.Sorted (· < ·)) {r : Nat} (h0 : 0 < r)
    (hn : r < s0.length) :
    ∀ j k, j < k → k ≤ (List.sublistsLen r s0).length - 1 →
      List.Lex (· < ·) ((iterN r j s0).take r) ((iterN r k s0).take r) := by
  intro j k
  induction k with
  | zero =>
    intro h _
    exact absurd h (Nat.not_lt_zero j)
  | succ k ih =>
    intro hjk hk
    have hstep : List.Lex (· < ·) ((iterN r k s0).take r)
        ((iterN r (k + 1) s0).take r) := by
      obtain ⟨hperm, hinv, hrank⟩ := good_rank hns h0 hn k (by omega)
      have ht : (next_combination r (iterN r k s0)).1 = true := by
        cases htf : (next_combination r (iterN r k s0)).1 with
        | true => rfl
        | false =>
          have hlast := rank_last hperm hns hinv.1 hinv.2 h0 hn htf
          omega
      rw [iterN_succ]
      exact lex_step hinv ht
    rcases Nat.lt_or_ge j k with h | h
    · exact lex_trans (ih h (by omega)) hstep
    · have hjk2 : j = k := by omega
      rw [hjk2]
      exact hstep

/-- C1: starting from the ascending arrangement of `n` distinct elements,
with `0 < r < n`, the generator runs through exactly `choose n r` selections:
the first `choose n r - 1` calls return `true`, the call on the last
arrangement returns `false`, and the selection-multisets of the
`choose n r` visited states are pairwise distinct. -/
theorem count_correctness (s0 : List α) (hs : s0.Sorted (· < ·)) (r : Nat)
    (h0 : 0 < r) (hn : r < s0.length) :
    (∀ k, k < Nat.choose s0.length r - 1 →
        (next_combination r (iterN r k s0)).1 = true)
    ∧ (next_combination r (iterN r (Nat.choose s0.length r - 1) s0)).1 = false
    ∧ (∀ j k, j < k → k ≤ Nat.choose s0.length r - 1 →
        ((iterN r j s0).take r : Multiset α) ≠ ((iterN r k s0).take r : Multiset α)) := by
  have hC : (List.sublistsLen r s0).length = Nat.choose s0.length r :=
    List.length_sublistsLen r s0
  refine ⟨?_, ?_, ?_⟩
  · intro k hk
    obtain ⟨hperm, hinv, hrank⟩ := good_rank hs h0 hn k (by omega)
    cases htf : (next_combination r (iterN r k s0)).1 with
    | true => rfl
    | false =>
      have hlast := rank_last hperm hs hinv.1 hinv.2 h0 hn htf
      omega
  · obtain ⟨hperm, hinv, hrank⟩ :=
      good_rank hs h0 hn (Nat.choose s0.length r - 1) (by omega)
    cases htf : (next_combination r
        (iterN r (Nat.choose s0.length r - 1) s0)).1 with
    | true =>
      have hstep := rank_step hperm hs hinv.1 hinv.2 htf
      have hperm2 : ((next_combination r
          (iterN r (Nat.choose s0.length r - 1) s0)).2).Perm s0 :=
        (next_combination_perm r (iterN r (Nat.choose s0.length r - 1) s0)).trans hperm
      have hinv2 := invariant_step hinv
      have hmem : ((next_combination r
            (iterN r (Nat.choose s0.length r - 1) s0)).2).take r
          ∈ List.sublistsLen r s0 :=
        sel_mem_combs hperm2 hs hinv2.1 (by rw [hperm2.length_eq]; omega)
      have hlt := rank_lt_length hs hmem
      omega
    | false => rfl
  · intro j k hjk hk
    have hlex := lex_chain hs h0 hn j k hjk (by omega)
    intro he
    obtain ⟨hpj, hinvj, -⟩ := good_rank hs h0 hn j (by omega)
    obtain ⟨hpk, hinvk, -⟩ := good_rank hs h0 hn k (by omega)
    have hpjk : ((iterN r j s0).take r).Perm ((iterN r k s0).take r) :=
      Multiset.coe_eq_coe.mp he
    have heq : (iterN r j s0).take r = (iterN r k s0).take r :=
      List.eq_of_perm_of_sorted hpjk hinvj.1 hinvk.1
    rw [heq] at hlex
    exact lex_irrefl _ hlex

theorem count_correctness_witness :
    (∀ k, k < Nat.choose ([0, 1, 2] : List Int).length 1 - 1 →
        (next_combination 1 (iterN 1 k ([0, 1, 2] : List Int))).1 = true)
    ∧ (next_combination 1 (iterN 1 (Nat.choose ([0, 1, 2] : List Int).length 1 - 1)
        ([0, 1, 2] : List Int))).1 = false
    ∧ (∀ j k, j < k → k ≤ Nat.choose ([0, 1, 2] : List Int).length 1 - 1 →
        ((iterN 1 j ([0, 1, 2] : List Int)).take 1 : Multiset Int)
          ≠ ((iterN 1 k ([0, 1, 2] : List Int)).take 1 : Multiset Int)) :=
  count_correctness ([0, 1, 2] : List Int) (by decide) 1 (by decide) (by decide)

/-! ### Claim theorems: boundary, reset, rotation contract, sortedness -/

/-- C7: if the selection is empty (`r = 0`) or the pool is empty (`r = n`),
`next_combination` returns `false` immediately and leaves the sequence
unchanged. -/
theorem next_combination_empty_ranges (s : List α) (r : Nat) (h : r = 0 ∨ r = s.length) :
    next_combination r s = (false, s) := by
  refine next_combination_stop ?_
  rcases h with h | h
  · exact Or.inl h
  · exact Or.inr (le_of_eq h.symm)

theorem next_combination_empty_ranges_witness :
    next_combination 0 ([3, 1, 2] : List Int) = (false, [3, 1, 2])
      ∧ next_combination 3 ([3, 1, 2] : List Int) = (false, [3, 1, 2]) :=
  ⟨next_combination_empty_ranges _ 0 (Or.inl rfl),
   next_combination_empty_ranges _ 3 (Or.inr rfl)⟩

/-- C6: the contract of `rotate_disjoint` on two ranges `A`, `B`: with
`n1 = |A| ≤ n2 = |B|`, `A` receives the first `n1` elements of `B` and `B`
the remaining `n2 - n1` elements of `B` followed by all of `A`; with
`n1 > n2`, `A` receives all of `B` followed by `A`'s first `n1 - n2`
elements and `B` receives `A`'s last `n2` elements. -/
theorem rotate_disjoint_contract (a b : List α) :
    (a.length ≤ b.length →
      rotate_disjoint a b = (b.take a.length, b.drop a.length ++ a))
    ∧ (b.length < a.length →
      rotate_disjoint a b = (b ++ a.take (a.length - b.length),
        a.drop (a.length - b.length))) := by
  rw [rotate_disjoint_eq]
  constructor
  · intro h
    rw [List.take_append_of_le_length h, List.drop_append_of_le_length h]
  · intro h
    rw [List.take_append_eq_append_take, List.take_of_length_le (le_of_lt h),
      List.drop_append_eq_append_drop, List.drop_of_length_le (le_of_lt h),
      List.nil_append]

/-- C10: when both the selection and the pool are sorted ascending and the
call returns `true`, the new selection is again sorted ascending. -/
theorem selection_sorted_after_true (s : List α) (r : Nat)
    (hsel : (s.take r).Sorted (· ≤ ·)) (hpool : (s.drop r).Sorted (· ≤ ·))
    (ht : (next_combination r s).1 = true) :
    (((next_combination r s).2).take r).Sorted (· ≤ ·) :=
  (invariant_step ⟨hsel, hpool⟩).1

theorem selection_sorted_after_true_witness :
    (([0, 1, 2] : List Int).take 1).Sorted (· ≤ ·)
      ∧ (([0, 1, 2] : List Int).drop 1).Sorted (· ≤ ·)
      ∧ (next_combination 1 ([0, 1, 2] : List Int)).1 = true
      ∧ (((next_combination 1 ([0, 1, 2] : List Int)).2).take 1).Sorted (· ≤ ·) :=
  ⟨by decide, by decide, by decide,
   selection_sorted_after_true ([0, 1, 2] : List Int) 1 (by decide) (by decide) (by decide)⟩

/-- C3: on the lexicographically last arrangement (selection and pool sorted,
every pool element at most every selection element, i.e. pool ++ selection
sorted), the call returns `false` and the sequence becomes the
lexicographically first arrangement: the whole range sorted ascending,
produced by the single rotate `std::rotate(first, mid, last)`. -/
theorem exhaustion_resets (s : List α) (r : Nat) (h0 : 0 < r) (hn : r < s.length)
    (hlast : (s.drop r ++ s.take r).Sorted (· ≤ ·)) :
    next_combination r s = (false, s.drop r ++ s.take r)
      ∧ ((next_combination r s).2).Sorted (· ≤ ·) := by
  have hcross := (List.pairwise_append.mp hlast).2.2
  have hpool_len : (s.drop r).length = s.length - r := List.length_drop _ _
  have hzero : lower_bound (s.take r) (s.getD (s.length - 1) default) = 0 := by
    refine lower_bound_eq_zero (not_lt.mpr ?_)
    have hvmem : s.getD (s.length - 1) default ∈ s.drop r := by
      have : s.getD (s.length - 1) default
          = (s.drop r).getD ((s.drop r).length - 1) default := by
        rw [getD_drop, hpool_len]
        congr 1
        omega
      rw [this]
      exact getD_mem (by omega)
    have h0mem : (s.take r).getD 0 default ∈ s.take r :=
      getD_mem (by rw [List.length_take]; omega)
    exact hcross _ hvmem _ h0mem
  have heq := next_combination_exhaust h0 hn hzero
  exact ⟨heq, by rw [heq]; exact hlast⟩

theorem exhaustion_resets_witness :
    next_combination 2 ([3, 4, 0, 1, 2] : List Int) = (false, [0, 1, 2, 3, 4])
      ∧ ((next_combination 2 ([3, 4, 0, 1, 2] : List Int)).2).Sorted (· ≤ ·) := by
  have h := exhaustion_resets ([3, 4, 0, 1, 2] : List Int) 2 (by decide) (by decide) (by decide)
  exact ⟨h.1, h.2⟩

/-- C2: along any enumeration started from an ascending sequence, every call
that returns `true` leaves the selection strictly lexicographically greater
than it was before the call. -/
theorem lex_ordering (s0 : List α) (hs : s0.Sorted (· ≤ ·)) (r k : Nat)
    (ht : (next_combination r (iterN r k s0)).1 = true) :
    List.Lex (· < ·) ((iterN r k s0).take r)
      (((next_combination r (iterN r k s0)).2).take r) :=
  lex_step (invariant_iterN (invariant_of_sorted hs r) k) ht

theorem lex_ordering_witness :
    (([0, 1, 2] : List Int).Sorted (· ≤ ·))
      ∧ (next_combination 2 (iterN 2 0 ([0, 1, 2] : List Int))).1 = true
      ∧ List.Lex (· < ·) ((iterN 2 0 ([0, 1, 2] : List Int)).take 2)
          (((next_combination 2 (iterN 2 0 ([0, 1, 2] : List Int))).2).take 2) :=
  ⟨by decide, by decide, lex_ordering ([0, 1, 2] : List Int) (by decide) 2 0 (by decide)⟩

/-- C5, counterexample: pool-sortedness alone is not preserved.  With the
selection unsorted (`[0, 9, 2]`) and the pool sorted (`[3, 4, 5]`), one call
leaves the pool `[0, 9, 2]`, no longer sorted. -/
theorem pool_sorted_alone_not_invariant :
    ((([0, 9, 2, 3, 4, 5] : List Int).drop 3).Sorted (· ≤ ·))
      ∧ ¬ ((((next_combination 3 ([0, 9, 2, 3, 4, 5] : List Int)).2).drop 3).Sorted
          (· ≤ ·)) := by
  constructor
  · decide
  · decide

/-- C5, amended: when the caller supplies BOTH halves sorted on the first call
(the spec's "both ordered ranges"), the pool is again sorted ascending after
every call of the enumeration, maintained by the algorithm itself. -/
theorem pool_sorted_invariant (s0 : List α) (r : Nat)
    (hsel : (s0.take r).Sorted (· ≤ ·)) (hpool : (s0.drop r).Sorted (· ≤ ·)) (k : Nat) :
    ((iterN r k s0).drop r).Sorted (· ≤ ·) :=
  (invariant_iterN ⟨hsel, hpool⟩ k).2

theorem pool_sorted_invariant_witness :
    ((([0, 1, 2, 3] : List Int).take 2).Sorted (· ≤ ·))
      ∧ ((([0, 1, 2, 3] : List Int).drop 2).Sorted (· ≤ ·))
      ∧ ((iterN 2 3 ([0, 1, 2, 3] : List Int)).drop 2).Sorted (· ≤ ·) :=
  ⟨by decide, by decide, pool_sorted_invariant ([0, 1, 2, 3] : List Int) 2
    (by decide) (by decide) 3⟩

/-! ### The exchange loop of the four-iterator variant -/

theorem listSwap_cross (X Y Z : List α) (a b : α) :
    listSwap (X ++ a :: (Y ++ b :: Z)) X.length (X.length + (Y.length + 1))
      = X ++ b :: (Y ++ a :: Z) := by
  have h1 : (X ++ a :: (Y ++ b :: Z)).getD X.length default = a := by
    rw [List.getD_append_right _ _ _ _ (le_refl _), Nat.sub_self, List.getD_cons_zero]
  have h2 : (X ++ a :: (Y ++ b :: Z)).getD (X.length + (Y.length + 1)) default = b := by
    rw [List.getD_append_right _ _ _ _ (by omega), Nat.add_sub_cancel_left,
      List.getD_cons_succ, List.getD_append_right _ _ _ _ (le_refl _), Nat.sub_self,
      List.getD_cons_zero]
  show ((X ++ a :: (Y ++ b :: Z)).set X.length
      ((X ++ a :: (Y ++ b :: Z)).getD (X.length + (Y.length + 1)) default)).set
      (X.length + (Y.length + 1)) ((X ++ a :: (Y ++ b :: Z)).getD X.length default) = _
  rw [h1, h2]
  rw [List.set_append, if_neg (lt_irrefl _), Nat.sub_self, List.set_cons_zero]
  rw [List.set_append, if_neg (by omega), Nat.add_sub_cancel_left, List.set_cons_succ,
    List.set_append, if_neg (lt_irrefl _), Nat.sub_self, List.set_cons_zero]

theorem swapLoop_spec : ∀ (A B P G : List α) (l2 m1 m2 : Nat),
    l2 = P.length + (A.length + (G.length + B.length)) →
    m1 = P.length + A.length →
    m2 = P.length + (A.length + G.length) →
    swapLoop P.length l2 (P ++ (A.reverse ++ (G ++ B))) m1 m2
      = (P ++ ((A.drop (min A.length B.length)).reverse
            ++ ((B.take (min A.length B.length)).reverse
              ++ (G ++ (A.take (min A.length B.length)
                ++ B.drop (min A.length B.length))))),
         P.length + (A.length - min A.length B.length),
         m2 + min A.length B.length) := by
  intro A
  induction A with
  | nil =>
    intro B P G l2 m1 m2 hl2 hm1 hm2
    simp only [List.length_nil, Nat.zero_add, Nat.add_zero] at hl2 hm1 hm2
    rw [swapLoop, dif_neg (by omega)]
    simp [hm1]
  | cons a A0 ih =>
    intro B P G l2 m1 m2 hl2 hm1 hm2
    simp only [List.length_cons] at hl2 hm1 hm2
    cases B with
    | nil =>
      simp only [List.length_nil, Nat.add_zero] at hl2
      rw [swapLoop, dif_neg (by omega)]
      simp [hm1]
    | cons b B0 =>
      simp only [List.length_cons] at hl2
      rw [swapLoop, dif_pos (by constructor <;> omega)]
      have hshape : P ++ ((a :: A0).reverse ++ (G ++ b :: B0))
          = (P ++ A0.reverse) ++ (a :: (G ++ b :: B0)) := by
        rw [List.reverse_cons]
        simp [List.append_assoc]
      have hm1' : m1 - 1 = (P ++ A0.reverse).length := by
        rw [List.length_append, List.length_reverse]
        omega
      have hm2' : m2 = (P ++ A0.reverse).length + (G.length + 1) := by
        rw [List.length_append, List.length_reverse]
        omega
      have hswap : listSwap (P ++ ((a :: A0).reverse ++ (G ++ b :: B0))) (m1 - 1) m2
          = P ++ (A0.reverse ++ ((b :: (G ++ [a])) ++ B0)) := by
        rw [hshape, hm1', hm2', listSwap_cross]
        simp [List.append_assoc]
      rw [hswap]
      have hrec := ih B0 P (b :: (G ++ [a])) l2 (m1 - 1) (m2 + 1)
        (by simp; omega) (by omega) (by simp; omega)
      rw [hrec]
      have hmin : min (A0.length + 1) (B0.length + 1) = min A0.length B0.length + 1 := by
        omega
      simp only [List.length_cons]
      rw [hmin]
      simp only [Prod.mk.injEq]
      refine ⟨?_, by omega, by omega⟩
      rw [List.drop_succ_cons, List.take_succ_cons, List.take_succ_cons,
        List.drop_succ_cons, List.reverse_cons]
      simp [List.append_assoc]

theorem reverseRange_mid (P M S : List α) (i j : Nat) (hi : i = P.length)
    (hj : j = P.length + M.length) :
    reverseRange (P ++ (M ++ S)) i j = P ++ (M.reverse ++ S) := by
  subst hi hj
  unfold reverseRange
  rw [List.take_left, List.drop_left, Nat.add_sub_cancel_left, List.take_left,
    List.drop_append, List.drop_left, List.append_assoc]

theorem take_min_eq (A B : List α) :
    B.take (min A.length B.length) ++ A.take (A.length - min A.length B.length)
      = (B ++ A).take A.length := by
  rw [List.take_append_eq_append_take]
  by_cases h : A.length ≤ B.length
  · rw [min_eq_left h, show A.length - A.length = A.length - B.length from by omega]
  · rw [min_eq_right (le_of_not_le h), List.take_length,
      List.take_of_length_le (le_of_not_le h)]

theorem drop_min_eq (A B : List α) :
    B.drop (min A.length B.length) ++ A.drop (A.length - min A.length B.length)
      = (B ++ A).drop A.length := by
  rw [List.drop_append_eq_append_drop]
  by_cases h : A.length ≤ B.length
  · rw [min_eq_left h, Nat.sub_self, show A.length - B.length = 0 from by omega]
  · rw [min_eq_right (le_of_not_le h), List.drop_length,
      List.drop_of_length_le (le_of_not_le h)]

/-- The second phase of the four-iterator variant (the exchange loop followed
by the four `std::reverse` calls) performs exactly the disjoint rotation: the
region at `[f1, l1)` receives `(B ++ A).take |A|` and the region at `[f2, l2)`
receives `(B ++ A).drop |A|`, `G` being the untouched gap `[l1, f2)`. -/
theorem phase2_spec (P A G B W : List α) (f1 l1 f2 l2 : Nat)
    (hW : W = P ++ (A ++ (G ++ B)))
    (hf1 : f1 = P.length) (hl1 : l1 = P.length + A.length)
    (hf2 : f2 = P.length + (A.length + G.length))
    (hl2 : l2 = P.length + (A.length + (G.length + B.length))) :
    (reverseRange (reverseRange (reverseRange (reverseRange
        (swapLoop f1 l2 W l1 f2).1
        f1 (swapLoop f1 l2 W l1 f2).2.1) f1 l1)
        (swapLoop f1 l2 W l1 f2).2.2 l2) f2 l2)
      = P ++ ((B ++ A).take A.length ++ (G ++ (B ++ A).drop A.length)) := by
  subst hW
  subst hf1
  have hk1 : min A.length B.length ≤ A.length := min_le_left _ _
  have hk2 : min A.length B.length ≤ B.length := min_le_right _ _
  have hsw := swapLoop_spec A.reverse B P G l2 l1 f2
    (by rw [List.length_reverse]; omega) (by rw [List.length_reverse]; omega)
    (by rw [List.length_reverse]; omega)
  rw [List.reverse_reverse, List.length_reverse, List.drop_reverse,
    List.take_reverse, List.reverse_reverse] at hsw
  simp only [hsw]
  -- first reversal: [f1, m1e) holds A.take (|A| - k)
  rw [reverseRange_mid P (A.take (A.length - min A.length B.length))
    ((B.take (min A.length B.length)).reverse
      ++ (G ++ ((A.drop (A.length - min A.length B.length)).reverse
        ++ B.drop (min A.length B.length))))
    P.length (P.length + (A.length - min A.length B.length)) rfl
    (by rw [List.length_take]; omega)]
  -- second reversal: [f1, l1) as a whole
  have hshape2 : P ++ ((A.take (A.length - min A.length B.length)).reverse
      ++ ((B.take (min A.length B.length)).reverse
        ++ (G ++ ((A.drop (A.length - min A.length B.length)).reverse
          ++ B.drop (min A.length B.length)))))
      = P ++ (((A.take (A.length - min A.length B.length)).reverse
          ++ (B.take (min A.length B.length)).reverse)
        ++ (G ++ ((A.drop (A.length - min A.length B.length)).reverse
          ++ B.drop (min A.length B.length)))) := by
    simp [List.append_assoc]
  rw [hshape2, reverseRange_mid P
    ((A.take (A.length - min A.length B.length)).reverse
      ++ (B.take (min A.length B.length)).reverse)
    (G ++ ((A.drop (A.length - min A.length B.length)).reverse
      ++ B.drop (min A.length B.length)))
    P.length l1 rfl
    (by simp only [List.length_append, List.length_take, List.length_reverse]; omega),
    List.reverse_append, List.reverse_reverse, List.reverse_reverse]
  -- third reversal: [m2e, l2) holds B.drop k
  have hshape3 : P ++ ((B.take (min A.length B.length)
      ++ (A.take (A.length - min A.length B.length)))
      ++ (G ++ ((A.drop (A.length - min A.length B.length)).reverse
        ++ B.drop (min A.length B.length))))
      = (P ++ ((B.take (min A.length B.length)
          ++ (A.take (A.length - min A.length B.length)))
        ++ (G ++ (A.drop (A.length - min A.length B.length)).reverse)))
        ++ (B.drop (min A.length B.length) ++ []) := by
    simp [List.append_assoc]
  rw [hshape3, reverseRange_mid
    (P ++ ((B.take (min A.length B.length)
      ++ (A.take (A.length - min A.length B.length)))
      ++ (G ++ (A.drop (A.length - min A.length B.length)).reverse)))
    (B.drop (min A.length B.length)) [] (f2 + min A.length B.length) l2
    (by simp only [List.length_append, List.length_take, List.length_reverse,
      List.length_drop]; omega)
    (by simp only [List.length_append, List.length_take, List.length_reverse,
      List.length_drop]; omega)]
  -- fourth reversal: [f2, l2) as a whole
  have hshape4 : (P ++ ((B.take (min A.length B.length)
      ++ (A.take (A.length - min A.length B.length)))
      ++ (G ++ (A.drop (A.length - min A.length B.length)).reverse)))
      ++ ((B.drop (min A.length B.length)).reverse ++ [])
      = (P ++ ((B.take (min A.length B.length)
          ++ (A.take (A.length - min A.length B.length))) ++ G))
        ++ (((A.drop (A.length - min A.length B.length)).reverse
          ++ (B.drop (min A.length B.length)).reverse) ++ []) := by
    simp [List.append_assoc]
  rw [hshape4, reverseRange_mid
    (P ++ ((B.take (min A.length B.length)
      ++ (A.take (A.length - min A.length B.length))) ++ G))
    ((A.drop (A.length - min A.length B.length)).reverse
      ++ (B.drop (min A.length B.length)).reverse) [] f2 l2
    (by simp only [List.length_append, List.length_take, List.length_reverse]; omega)
    (by simp only [List.length_append, List.length_take, List.length_reverse,
      List.length_drop]; omega),
    List.reverse_append, List.reverse_reverse, List.reverse_reverse]
  rw [← take_min_eq, ← drop_min_eq]
  simp [List.append_assoc]

/-! ### The scans of the four-iterator variant against the binary searches -/

theorem lower_bound_zero_head {l : List α} {v : α} (h : lower_bound l v = 0)
    (hl : 0 < l.length) : ¬ l.getD 0 default < v := by
  cases l with
  | nil => simp at hl
  | cons x xs =>
    simp only [lower_bound] at h
    by_cases hx : x < v
    · rw [if_pos hx] at h
      omega
    · simpa [List.getD_cons_zero] using hx

/-- On a sorted selection, the backward scan stops exactly one position before
where `lower_bound` stops. -/
theorem findM1_eq {s : List α} {r : Nat} (hsel : (s.take r).Sorted (· ≤ ·))
    (h0 : 0 < r) (hn : r < s.length) :
    findM1 s (s.getD (s.length - 1) default) r
      = lower_bound (s.take r) (s.getD (s.length - 1) default) - 1 := by
  set v := s.getD (s.length - 1) default with hv
  set lb := lower_bound (s.take r) v with hlb
  have hlen_sel : (s.take r).length = r := by
    rw [List.length_take]
    omega
  have hlb_le : lb ≤ r := by
    have := lower_bound_le_length (s.take r) v
    omega
  have key : ∀ m, lb ≤ m → m ≤ r → findM1 s v m = lb - 1 := by
    intro m
    induction m with
    | zero =>
      intro h1 h2
      rw [findM1]
      omega
    | succ m ih =>
      intro h1 h2
      rw [findM1]
      by_cases hm : lb ≤ m
      · have hge : ¬ (s.getD m default < v) := by
          have h4 := @lower_bound_getD_ge α _ _ (s.take r) v (by omega)
          have h5 : v ≤ (s.take r).getD m default := by
            refine h4.trans (sorted_getD_le hsel ?_ ?_) <;> omega
          rw [getD_take (by omega)] at h5
          exact not_lt.mpr h5
        by_cases hm0 : m = 0
        · subst hm0
          rw [if_neg (fun hc => hc.1 rfl)]
          omega
        · rw [if_pos ⟨hm0, hge⟩]
          exact ih hm (by omega)
      · have hlt : s.getD m default < v := by
          have h6 := @getD_lt_of_lt_lower_bound α _ _ (s.take r) v m (by omega)
          rwa [getD_take (by omega)] at h6
        rw [if_neg (fun hc => hc.2 hlt)]
        omega
  exact key r hlb_le (le_refl r)

/-- On a sorted pool, the forward scan of `first2` stops exactly where
`upper_bound` stops (the value `lv` being smaller than the pool's last
element). -/
theorem findFirst2_eq {s : List α} {r : Nat} (hpool : (s.drop r).Sorted (· ≤ ·))
    (hn : r < s.length) {lv : α} (hlv : lv < s.getD (s.length - 1) default) :
    findFirst2 s lv (s.length - 1) r = r + upper_bound (s.drop r) lv := by
  set ub := upper_bound (s.drop r) lv with hub
  have hpool_len : (s.drop r).length = s.length - r := List.length_drop _ _
  have hub_le : ub ≤ s.length - r - 1 := by
    refine upper_bound_le_of_getD_gt (by omega) ?_
    rw [getD_drop, show r + (s.length - r - 1) = s.length - 1 from by omega]
    exact hlv
  have key : ∀ d j, r ≤ j → j + d = r + ub → findFirst2 s lv (s.length - 1) j = r + ub := by
    intro d
    induction d with
    | zero =>
      intro j hj1 hj2
      rw [findFirst2]
      rw [dif_neg ?_]
      · omega
      rintro ⟨hjlt, hnotlt⟩
      refine hnotlt ?_
      have h1 : s.getD j default = (s.drop r).getD ub default := by
        rw [getD_drop, show r + ub = j from by omega]
      rw [h1]
      exact upper_bound_getD_gt (by omega)
    | succ d ih =>
      intro j hj1 hj2
      have h2 : s.getD j default ≤ lv := by
        have h3 := @getD_le_of_lt_upper_bound α _ _ (s.drop r) lv (j - r) (by omega)
        rwa [getD_drop, show r + (j - r) = j from by omega] at h3
      rw [findFirst2, dif_pos ⟨by omega, not_lt.mpr h2⟩]
      exact ih (j + 1) (by omega) (by omega)
  exact key ub r (le_refl r) rfl

/-- On an invariant state (both halves sorted) the four-iterator variant and
the three-iterator variant return the same flag and the same sequence. -/
theorem step4_eq_step {r : Nat} {s : List α} (h : Invariant r s) :
    next_combination4 r s = next_combination r s := by
  by_cases hg : r = 0 ∨ s.length ≤ r
  · rw [next_combination_stop hg, next_combination4, if_pos hg]
  push_neg at hg
  have h0 : 0 < r := Nat.pos_of_ne_zero hg.1
  have hn : r < s.length := hg.2
  obtain ⟨hsel, hpool⟩ := h
  have hlen_sel : (s.take r).length = r := by
    rw [List.length_take]
    omega
  have hguard : ¬(r = 0 ∨ s.length ≤ r) := by omega
  cases hcl : lower_bound (s.take r) (s.getD (s.length - 1) default) with
  | zero =>
    have hfm : findM1 s (s.getD (s.length - 1) default) r = 0 := by
      rw [findM1_eq hsel h0 hn, hcl]
    have hhead : ¬ s.getD 0 default < s.getD (s.length - 1) default := by
      have hz := @lower_bound_zero_head α _ _ (s.take r)
        (s.getD (s.length - 1) default) hcl (by omega)
      rwa [getD_take h0] at hz
    rw [next_combination_exhaust h0 hn hcl, next_combination4, if_neg hguard]
    simp only [hfm, hhead, eq_self_iff_true, decide_True, not_false_iff,
      Bool.and_self, if_true, Bool.not_true]
    have hcnd : ((0 : Nat) ≠ r ∧ r ≠ s.length) := ⟨by omega, by omega⟩
    rw [if_pos hcnd]
    rw [phase2_spec [] (s.take r) [] (s.drop r) s 0 r r s.length
      (by simp) rfl (by simp [hlen_sel]) (by simp [hlen_sel])
      (by simp [hlen_sel]; omega)]
    simp [List.take_append_drop]
  | succ li =>
    have hli_lt : li < r := pivot_lt_r hn hcl
    have hub_lt : upper_bound (s.drop r) (s.getD li default) < s.length - r :=
      exchange_lt_pool hn hcl
    set ub := upper_bound (s.drop r) (s.getD li default) with hub
    have hfm : findM1 s (s.getD (s.length - 1) default) r = li := by
      rw [findM1_eq hsel h0 hn, hcl]
      omega
    have h00 : s.getD 0 default < s.getD (s.length - 1) default := by
      have h6 := @getD_lt_of_lt_lower_bound α _ _ (s.take r)
        (s.getD (s.length - 1) default) 0 (by omega)
      rwa [getD_take h0] at h6
    have hff : findFirst2 s (s.getD li default) (s.length - 1) r = r + ub :=
      findFirst2_eq hpool hn (pivot_lt_last hn hcl)
    -- the swap splits at the boundary
    have hswap : listSwap s li (r + ub)
        = (s.take r).set li ((s.drop r).getD ub default)
          ++ (s.drop r).set ub (s.getD li default) := by
      have h1 := @listSwap_append α _ _ (s.take r) (s.drop r) li (r + ub)
        (by omega) (by rw [hlen_sel]; omega)
      rw [List.take_append_drop, hlen_sel, Nat.add_sub_cancel_left,
        getD_take hli_lt] at h1
      exact h1
    have hseldec : (s.take r).set li ((s.drop r).getD ub default)
        = (s.take r).take li
          ++ (s.drop r).getD ub default :: (s.take r).drop (li + 1) := by
      rw [List.set_eq_take_append_cons_drop, if_pos (by omega)]
    have hpooldec : (s.drop r).set ub (s.getD li default)
        = (s.drop r).take ub ++ s.getD li default :: (s.drop r).drop (ub + 1) := by
      rw [List.set_eq_take_append_cons_drop, if_pos (by rw [List.length_drop]; omega)]
    have hW : listSwap s li (r + ub)
        = ((s.take r).take li ++ [(s.drop r).getD ub default])
          ++ ((s.take r).drop (li + 1)
            ++ (((s.drop r).take ub ++ [s.getD li default])
              ++ (s.drop r).drop (ub + 1))) := by
      rw [hswap, hseldec, hpooldec]
      simp [List.append_assoc]
    rw [next_combination4, if_neg hguard]
    simp only [hfm, hff, h00, not_true, decide_False, Bool.and_false,
      Bool.false_eq_true, if_false, Bool.not_false]
    by_cases hc : (li + 1 ≠ r ∧ r + ub + 1 ≠ s.length)
    · rw [if_pos hc]
      rw [phase2_spec ((s.take r).take li ++ [(s.drop r).getD ub default])
        ((s.take r).drop (li + 1))
        ((s.drop r).take ub ++ [s.getD li default])
        ((s.drop r).drop (ub + 1))
        (listSwap s li (r + ub)) (li + 1) r (r + ub + 1) s.length
        hW (by simp; omega) (by simp; omega) (by simp; omega) (by simp; omega)]
      rw [next_combination_true_eq h0 hn hcl hub.symm]
      simp only [List.length_drop, hlen_sel, Prod.mk.injEq, true_and]
      simp [List.append_assoc]
    · rw [if_neg hc]
      push_neg at hc
      rw [next_combination_true_eq h0 hn hcl hub.symm]
      by_cases heq : li + 1 = r
      · have ha0 : (s.take r).drop (li + 1) = [] :=
          List.drop_of_length_le (by rw [hlen_sel]; omega)
        rw [hW, ha0]
        simp [show r - (li + 1) = 0 from by omega, List.append_assoc]
      · have heq2 : r + ub + 1 = s.length := hc (by omega)
        have hb0 : (s.drop r).drop (ub + 1) = [] :=
          List.drop_of_length_le (by rw [List.length_drop]; omega)
        have hT1 : (((s.drop r).drop (ub + 1) ++ (s.take r).drop (li + 1)).take
            (r - (li + 1))) = (s.take r).drop (li + 1) := by
          rw [hb0, List.nil_append]
          exact List.take_of_length_le (by rw [List.length_drop, hlen_sel])
        have hT2 : (((s.drop r).drop (ub + 1) ++ (s.take r).drop (li + 1)).drop
            (r - (li + 1))) = [] := by
          rw [hb0, List.nil_append]
          exact List.drop_of_length_le (by rw [List.length_drop, hlen_sel])
        rw [hT1, hT2, hW, hb0]
        simp [List.append_assoc]

/-! ### Multiset invariance of the four-iterator variant -/

theorem findM1_lt {s : List α} {v : α} : ∀ {m : Nat}, 0 < m → findM1 s v m < m := by
  intro m
  induction m with
  | zero => omega
  | succ m ih =>
    intro _
    rw [findM1]
    split
    · rcases Nat.eq_zero_or_pos m with rfl | hm
      · exact absurd rfl (by tauto)
      · exact lt_trans (ih hm) (by omega)
    · omega

theorem findFirst2_le {s : List α} {lv : α} {m2 : Nat} :
    ∀ {j : Nat}, j ≤ m2 → findFirst2 s lv m2 j ≤ m2 := by
  have key : ∀ d j, m2 - j ≤ d → j ≤ m2 → findFirst2 s lv m2 j ≤ m2 := by
    intro d
    induction d with
    | zero =>
      intro j h1 h2
      rw [findFirst2, dif_neg (by omega)]
      exact h2
    | succ d ih =>
      intro j h1 h2
      rw [findFirst2]
      split
      · rename_i hcond
        exact ih (j + 1) (by omega) (by omega)
      · exact h2
  intro j hj
  exact key (m2 - j) j (le_refl _) hj

theorem swapLoop_perm {f1 l2 : Nat} : ∀ (m1 : Nat) (s : List α) (m2 : Nat),
    m1 ≤ s.length → l2 ≤ s.length → ((swapLoop f1 l2 s m1 m2).1).Perm s := by
  intro m1
  induction m1 with
  | zero =>
    intro s m2 h1 h2
    rw [swapLoop, dif_neg (by omega)]
  | succ m1 ih =>
    intro s m2 h1 h2
    rw [swapLoop]
    split
    · rename_i hcond
      refine ((ih (listSwap s (m1 + 1 - 1) m2) (m2 + 1) ?_ ?_).trans
        (listSwap_perm s (m1 + 1 - 1) m2 (by omega) (by omega)))
      · rw [listSwap_length]
        omega
      · rw [listSwap_length]
        omega
    · exact List.Perm.refl s

theorem swapLoop_bounds {f1 l2 : Nat} : ∀ (m1 : Nat) (s : List α) (m2 : Nat),
    f1 ≤ m1 → (f1 ≤ (swapLoop f1 l2 s m1 m2).2.1 ∧ (swapLoop f1 l2 s m1 m2).2.1 ≤ m1)
      ∧ (m2 ≤ (swapLoop f1 l2 s m1 m2).2.2
        ∧ (m2 ≤ l2 → (swapLoop f1 l2 s m1 m2).2.2 ≤ l2)) := by
  intro m1
  induction m1 with
  | zero =>
    intro s m2 h1
    rw [swapLoop, dif_neg (by omega)]
    exact ⟨⟨h1, le_refl _⟩, le_refl _, fun h => h⟩
  | succ m1 ih =>
    intro s m2 h1
    rw [swapLoop]
    split
    · rename_i hcond
      have hrec := ih (listSwap s (m1 + 1 - 1) m2) (m2 + 1) (by omega)
      refine ⟨⟨hrec.1.1, le_trans hrec.1.2 (by omega)⟩, le_trans (by omega) hrec.2.1,
        fun h => hrec.2.2 (by omega)⟩
    · exact ⟨⟨h1, le_refl _⟩, le_refl _, fun h => h⟩

theorem reverseRange_length {s : List α} {i j : Nat} (hij : i ≤ j) (hj : j ≤ s.length) :
    (reverseRange s i j).length = s.length := by
  unfold reverseRange
  simp only [List.length_append, List.length_take, List.length_reverse,
    List.length_drop]
  omega

theorem reverseRange_perm {s : List α} {i j : Nat} (hij : i ≤ j) (hj : j ≤ s.length) :
    (reverseRange s i j).Perm s := by
  unfold reverseRange
  rw [List.append_assoc]
  conv_rhs => rw [← List.take_append_drop i s,
    ← List.take_append_drop (j - i) (s.drop i)]
  rw [List.drop_drop, show i + (j - i) = j from by omega]
  exact List.Perm.append_left _ (List.Perm.append_right _ (List.reverse_perm _))

theorem next_combination4_perm (r : Nat) (s : List α) (hr : r ≤ s.length) :
    ((next_combination4 r s).2).Perm s := by
  by_cases hg : r = 0 ∨ s.length ≤ r
  · rw [next_combination4, if_pos hg]
  push_neg at hg
  have h0 : 0 < r := Nat.pos_of_ne_zero hg.1
  have hn : r < s.length := hg.2
  simp only [next_combination4]
  rw [if_neg (show ¬(r = 0 ∨ s.length ≤ r) from by omega)]
  set v := s.getD (s.length - 1) default with hv
  set m1 := findM1 s v r with hm1
  have hm1_lt : m1 < r := findM1_lt h0
  set jf := findFirst2 s (s.getD m1 default) (s.length - 1) r with hjf
  have hjf_le : jf ≤ s.length - 1 :=
    @findFirst2_le α _ _ s (s.getD m1 default) (s.length - 1) r (by omega)
  set res : Bool := decide (m1 = 0) && decide (¬(s.getD 0 default < v)) with hres
  set t := if res then (s, 0, r) else (listSwap s m1 jf, m1 + 1, jf + 1) with ht
  have hperm1 : (t.1).Perm s ∧ t.2.1 ≤ r ∧ t.2.2 ≤ s.length := by
    rw [ht]
    by_cases hb : res = true
    · rw [if_pos hb]
      refine ⟨List.Perm.refl s, ?_, ?_⟩
      · show (0 : Nat) ≤ r
        omega
      · show r ≤ s.length
        omega
    · rw [if_neg hb]
      refine ⟨listSwap_perm s m1 jf (by omega) (by omega), ?_, ?_⟩
      · show m1 + 1 ≤ r
        omega
      · show jf + 1 ≤ s.length
        omega
  have ht1len : t.1.length = s.length := hperm1.1.length_eq
  by_cases hcnd : (t.2.1 ≠ r ∧ t.2.2 ≠ s.length)
  · rw [if_pos hcnd]
    have hswb := @swapLoop_bounds α _ _ t.2.1 s.length r t.1 t.2.2 (by omega)
    have hswp : ((swapLoop t.2.1 s.length t.1 r t.2.2).1).Perm t.1 :=
      swapLoop_perm r t.1 t.2.2 (by omega) (by omega)
    have hswlen : (swapLoop t.2.1 s.length t.1 r t.2.2).1.length = s.length := by
      rw [hswp.length_eq, ht1len]
    have hb1 : t.2.1 ≤ (swapLoop t.2.1 s.length t.1 r t.2.2).2.1 := hswb.1.1
    have hb2 : (swapLoop t.2.1 s.length t.1 r t.2.2).2.1 ≤ r := hswb.1.2
    have hb4 : (swapLoop t.2.1 s.length t.1 r t.2.2).2.2 ≤ s.length :=
      hswb.2.2 (by omega)
    have hp3 : (reverseRange (swapLoop t.2.1 s.length t.1 r t.2.2).1 t.2.1
        (swapLoop t.2.1 s.length t.1 r t.2.2).2.1).Perm
        (swapLoop t.2.1 s.length t.1 r t.2.2).1 :=
      reverseRange_perm (by omega) (by omega)
    have hl3 := (hp3.length_eq).trans hswlen
    have hp4 : (reverseRange (reverseRange (swapLoop t.2.1 s.length t.1 r t.2.2).1
        t.2.1 (swapLoop t.2.1 s.length t.1 r t.2.2).2.1) t.2.1 r).Perm _ :=
      reverseRange_perm (by omega) (by omega)
    have hl4 := (hp4.length_eq).trans hl3
    have hp5 : (reverseRange (reverseRange (reverseRange
        (swapLoop t.2.1 s.length t.1 r t.2.2).1 t.2.1
        (swapLoop t.2.1 s.length t.1 r t.2.2).2.1) t.2.1 r)
        (swapLoop t.2.1 s.length t.1 r t.2.2).2.2 s.length).Perm _ :=
      reverseRange_perm (by omega) (by omega)
    have hl5 := (hp5.length_eq).trans hl4
    have hp6 : (reverseRange (reverseRange (reverseRange (reverseRange
        (swapLoop t.2.1 s.length t.1 r t.2.2).1 t.2.1
        (swapLoop t.2.1 s.length t.1 r t.2.2).2.1) t.2.1 r)
        (swapLoop t.2.1 s.length t.1 r t.2.2).2.2 s.length) t.2.2 s.length).Perm _ :=
      reverseRange_perm (by omega) (by omega)
    exact hp6.trans (hp5.trans (hp4.trans (hp3.trans (hswp.trans hperm1.1))))
  · rw [if_neg hcnd]
    exact hperm1.1

/-- C8: from any ascending sequence of distinct elements, for every subset
size and every number of steps, the four-iterator variant and the
three-iterator variant are in the same state and their next calls return the
same flag and the same sequence — so they produce identical sequences of
combinations in identical order and report exhaustion on the same call. -/
theorem variants_equivalent (s0 : List α) (hs : s0.Sorted (· < ·)) (r k : Nat) :
    iterN4 r k s0 = iterN r k s0
      ∧ next_combination4 r (iterN4 r k s0) = next_combination r (iterN r k s0) := by
  have hinv := invariant_of_sorted (List.Sorted.le_of_lt hs) r
  induction k with
  | zero => exact ⟨rfl, step4_eq_step hinv⟩
  | succ k ih =>
    have hstates : iterN4 r (k + 1) s0 = iterN r (k + 1) s0 := by
      rw [iterN4_succ, iterN_succ, ih.2]
    refine ⟨hstates, ?_⟩
    rw [hstates]
    exact step4_eq_step (invariant_iterN hinv (k + 1))

theorem variants_equivalent_witness :
    (([0, 1, 2] : List Int).Sorted (· < ·))
      ∧ iterN4 2 1 ([0, 1, 2] : List Int) = iterN 2 1 ([0, 1, 2] : List Int)
      ∧ next_combination4 2 (iterN4 2 1 ([0, 1, 2] : List Int))
          = next_combination 2 (iterN 2 1 ([0, 1, 2] : List Int)) :=
  ⟨by decide, (variants_equivalent ([0, 1, 2] : List Int) (by decide) 2 1).1,
   (variants_equivalent ([0, 1, 2] : List Int) (by decide) 2 1).2⟩

/-- C4: every call of either generator variant only permutes the sequence:
the multiset of element values in `[first, last)` after the call equals the
multiset before the call. -/
theorem multiset_invariance (s : List α) (r : Nat) (hr : r ≤ s.length) :
    (((next_combination r s).2 : Multiset α) = (s : Multiset α))
      ∧ (((next_combination4 r s).2 : Multiset α) = (s : Multiset α)) :=
  ⟨Multiset.coe_eq_coe.mpr (next_combination_perm r s),
   Multiset.coe_eq_coe.mpr (next_combination4_perm r s hr)⟩

theorem multiset_invariance_witness :
    (2 ≤ ([5, 1, 4, 2] : List Int).length)
      ∧ (((next_combination 2 ([5, 1, 4, 2] : List Int)).2 : Multiset Int)
          = (([5, 1, 4, 2] : List Int) : Multiset Int))
      ∧ (((next_combination4 2 ([5, 1, 4, 2] : List Int)).2 : Multiset Int)
          = (([5, 1, 4, 2] : List Int) : Multiset Int)) :=
  ⟨by decide, (multiset_invariance ([5, 1, 4, 2] : List Int) 2 (by decide)).1,
   (multiset_invariance ([5, 1, 4, 2] : List Int) 2 (by decide)).2⟩

/-! ### The benchmark harness (benchmark.cpp) -/

/-- The four process-scoped operation counters of tracked.hpp. -/
structure TrackedStats where
  value_comparisons : Nat
  value_swaps : Nat
  iter_comparisons : Nat
  iter_increments : Nat
deriving DecidableEq

/-- `reset_tracked_stats()` of benchmark.cpp (lines 16-22): all four counters
set to zero. -/
def reset_tracked_stats : TrackedStats :=
  ⟨0, 0, 0, 0⟩

/-- The tracked-iterator comparisons performed by the entry guard of
`biowpn::next_combination` (`if (first == mid || mid == last)`, biowpn.hpp
line 23): one comparison when `first == mid` short-circuits (`r = 0`), two
otherwise.  Only this guard's operations are modelled; the standard-library
internals (`lower_bound`, `upper_bound`, `rotate`, `swap_ranges`) perform
further, implementation-defined numbers of tracked operations, so the real
counters are at least the modelled ones.  This much already settles where the
harness resets the counters. -/
def guard_iter_comparisons (r : Nat) : Nat :=
  if r = 0 then 1 else 2

/-- One generator call through the tracked iterators: the result of
`next_combination` together with the counter updates this model accounts
for. -/
def tracked_next_combination (r : Nat) (s : List Nat) (st : TrackedStats) :
    Bool × List Nat × TrackedStats :=
  ((next_combination r s).1, (next_combination r s).2,
    { st with iter_comparisons := st.iter_comparisons + guard_iter_comparisons r })

/-- The inner `while (next_combination_fn(...)) ;` loop of
`benchmark_next_combination` (benchmark.cpp lines 40-43), with a fuel bound
on the number of calls (the C++ loop runs until a call returns false; with
fuel at least the number of calls of the round the two agree). -/
def run_generator (r : Nat) : Nat → List Nat → TrackedStats → List Nat × TrackedStats
  | 0, s, st => (s, st)
  | fuel + 1, s, st =>
    let p := tracked_next_combination r s st
    if p.1 then run_generator r fuel p.2.1 p.2.2 else (p.2.1, p.2.2)

/-- `benchmark_next_combination(n, fn)` of benchmark.cpp (lines 32-47): the
counters are reset once (line 33), then for each `r = 0..n` a fresh sequence
`data` of the `n` distinct tracked values `0..n-1` is built and the generator
is run on `[begin, begin + r, end)` until it returns false.  The first
component records, for each `r` in order, the counter values held
immediately before the first generator call of round `r`; the second is the
final counter state. -/
def benchmark_next_combination (n fuel : Nat) : List TrackedStats × TrackedStats :=
  (List.range (n + 1)).foldl
    (fun acc r => (acc.1 ++ [acc.2], (run_generator r fuel (List.range n) acc.2).2))
    ([], reset_tracked_stats)

/-- Componentwise order on the counters: counters only ever increase. -/
def statsLe (a b : TrackedStats) : Prop :=
  a.value_comparisons ≤ b.value_comparisons ∧ a.value_swaps ≤ b.value_swaps
    ∧ a.iter_comparisons ≤ b.iter_comparisons
    ∧ a.iter_increments ≤ b.iter_increments

/-- The per-round log of counter states, one entry per subset size, and the
final counter state, mirroring the fold of `benchmark_next_combination`. -/
def benchLog (n fuel : Nat) : List Nat → TrackedStats → List TrackedStats
  | [], _ => []
  | r :: rs, st => st :: benchLog n fuel rs (run_generator r fuel (List.range n) st).2

def benchFinal (n fuel : Nat) : List Nat → TrackedStats → TrackedStats
  | [], st => st
  | r :: rs, st => benchFinal n fuel rs (run_generator r fuel (List.range n) st).2

theorem tracked_le (r : Nat) (s : List Nat) (st : TrackedStats) :
    statsLe st (tracked_next_combination r s st).2.2 := by
  refine ⟨le_refl _, le_refl _, ?_, le_refl _⟩
  show st.iter_comparisons ≤ st.iter_comparisons + guard_iter_comparisons r
  omega

theorem statsLe_trans {a b c : TrackedStats} (h1 : statsLe a b) (h2 : statsLe b c) :
    statsLe a c := by
  obtain ⟨x1, x2, x3, x4⟩ := h1
  obtain ⟨y1, y2, y3, y4⟩ := h2
  exact ⟨x1.trans y1, x2.trans y2, x3.trans y3, x4.trans y4⟩

theorem run_generator_le (r : Nat) : ∀ (fuel : Nat) (s : List Nat) (st : TrackedStats),
    statsLe st (run_generator r fuel s st).2 := by
  intro fuel
  induction fuel with
  | zero =>
    intro s st
    exact ⟨le_refl _, le_refl _, le_refl _, le_refl _⟩
  | succ fuel ih =>
    intro s st
    rw [run_generator]
    split
    · exact statsLe_trans (tracked_le r s st) (ih _ _)
    · exact tracked_le r s st

theorem benchmark_fold_eq (n fuel : Nat) : ∀ (rs : List Nat) (log : List TrackedStats)
    (st : TrackedStats),
    (rs.foldl
        (fun acc r => (acc.1 ++ [acc.2], (run_generator r fuel (List.range n) acc.2).2))
        (log, st))
      = (log ++ benchLog n fuel rs st, benchFinal n fuel rs st) := by
  intro rs
  induction rs with
  | nil =>
    intro log st
    simp [benchLog, benchFinal]
  | cons r rs ih =>
    intro log st
    rw [List.foldl_cons, ih, benchLog, benchFinal]
    simp [List.append_assoc]

theorem benchLog_chain (n fuel : Nat) : ∀ (rs : List Nat) (prev st : TrackedStats),
    statsLe prev st → List.Chain statsLe prev (benchLog n fuel rs st) := by
  intro rs
  induction rs with
  | nil =>
    intro prev st _
    exact List.Chain.nil
  | cons r rs ih =>
    intro prev st h
    exact List.Chain.cons h (ih st _ (run_generator_le r fuel _ st))

/-- C9, counterexample: the counters are NOT reset before every subset size.
With `n = 1`, the round `r = 0` performs one guarded generator call, so
immediately before the first call of round `r = 1` the iterator-comparison
counter is already nonzero. -/
theorem counters_not_reset_per_r :
    ((benchmark_next_combination 1 4).1).getD 1 reset_tracked_stats
      ≠ reset_tracked_stats := by
  decide

/-- C9, amended: `benchmark_next_combination` resets the four counters once,
before the sweep, not before every subset size: for each `r = 0..n` it builds
a fresh sequence `0..n-1` and runs the generator until exhaustion (one log
entry per `r`, so `n + 1` rounds), the counters are zero immediately before
the first generator call of round `r = 0` only, and from round to round they
only accumulate (they are monotone, never reset again). -/
theorem benchmark_resets_once (n fuel : Nat) :
    ((benchmark_next_combination n fuel).1).getD 0 reset_tracked_stats
        = reset_tracked_stats
      ∧ ((benchmark_next_combination n fuel).1).length = n + 1
      ∧ List.Chain' statsLe ((benchmark_next_combination n fuel).1) := by
  have hfold := benchmark_fold_eq n fuel (List.range (n + 1)) [] reset_tracked_stats
  have hb : benchmark_next_combination n fuel
      = (benchLog n fuel (List.range (n + 1)) reset_tracked_stats,
         benchFinal n fuel (List.range (n + 1)) reset_tracked_stats) := by
    rw [benchmark_next_combination, hfold, List.nil_append]
  have hcons : ∃ rest, benchLog n fuel (List.range (n + 1)) reset_tracked_stats
      = reset_tracked_stats :: rest := by
    rw [List.range_succ_eq_map, benchLog]
    exact ⟨_, rfl⟩
  obtain ⟨rest, hrest⟩ := hcons
  have hlen : ∀ (rs : List Nat) (st : TrackedStats),
      (benchLog n fuel rs st).length = rs.length := by
    intro rs
    induction rs with
    | nil => intro st; rfl
    | cons r rs ih =>
      intro st
      rw [benchLog, List.length_cons, ih, List.length_cons]
  refine ⟨?_, ?_, ?_⟩
  · rw [hb, hrest]
    rfl
  · rw [hb]
    show (benchLog n fuel (List.range (n + 1)) reset_tracked_stats).length = n + 1
    rw [hlen, List.length_range]
  · rw [hb, hrest]
    show List.Chain statsLe reset_tracked_stats rest
    have := benchLog_chain n fuel (List.range (n + 1)) reset_tracked_stats
      reset_tracked_stats ⟨le_refl _, le_refl _, le_refl _, le_refl _⟩
    rw [hrest] at this
    cases this with
    | cons _ h => exact h

end Bioweapon
